import Mathlib

/-!
Verification of the Releasify version-calculation and commit-classification
core against its specification.  The Python modules `src/version_calc.py`,
`src/commit_parser.py`, `src/commit_validator.py`, `src/config.py` and the
driver `release.py` are shallowly embedded below; character-level string
operations mirror the CPython semantics of the constructs the source uses
(`str.strip`, `str.split`, `re` patterns restricted to the ASCII inputs the
program manipulates).
-/

/-! ## Character and string utilities (CPython semantics, ASCII fragment) -/

/-- Python whitespace for `str.strip` and `\s` (ASCII fragment). -/
def isPyWs (c : Char) : Bool :=
  c == ' ' || c == '\t' || c == '\n' || c == '\r' || c == '\x0b' || c == '\x0c'

/-- Python `\w` word character (ASCII fragment). -/
def isWordChar (c : Char) : Bool :=
  c.isAlphanum || c == '_'

/-- `str.strip()` on a character list. -/
def pyStrip (l : List Char) : List Char :=
  ((l.dropWhile isPyWs).reverse.dropWhile isPyWs).reverse

/-- `str.split(sep)` for a one-character separator.  As in Python, the result
is never empty: splitting the empty string yields `[[]]`. -/
def splitChar (sep : Char) : List Char → List (List Char)
  | [] => [[]]
  | c :: r =>
    match splitChar sep r with
    | [] => [[c]]
    | h :: t => if c == sep then [] :: h :: t else (c :: h) :: t

/-- `"\n".join(...)` on character lists. -/
def joinNl : List (List Char) → List Char
  | [] => []
  | [x] => x
  | x :: xs => x ++ '\n' :: joinNl xs

/-- Lower-case a character list (`str.lower()`, ASCII fragment). -/
def lowerChars (l : List Char) : List Char :=
  l.map Char.toLower

/-- Whether `needle` (given lower-case) is a case-insensitive prefix of the
second list; on success returns the remainder. -/
def ciStrip : List Char → List Char → Option (List Char)
  | [], rest => some rest
  | _ :: _, [] => none
  | n :: ns, c :: cs => if c.toLower == n then ciStrip ns cs else none

/-- Substring test (`needle in hay` on Python strings). -/
def containsSub (needle : List Char) : List Char → Bool
  | [] => needle.isEmpty
  | c :: t => needle.isPrefixOf (c :: t) || containsSub needle t

/-! ## Decimal numerals -/

/-- Value of a digit character. -/
def dval (c : Char) : Nat := c.toNat - 48

/-- Character of a digit value below ten. -/
def digitChar (n : Nat) : Char := Char.ofNat (48 + n)

/-- `int(...)` on an all-digit string. -/
def digitsToNat (l : List Char) : Nat :=
  l.foldl (fun a c => 10 * a + dval c) 0

/-- Canonical decimal digits of a natural number, with explicit fuel so that
the definition is structural and kernel-reducible. -/
def natDigitsAux : Nat → Nat → List Char
  | 0, _ => []
  | fuel + 1, n =>
    if n < 10 then [digitChar n]
    else natDigitsAux fuel (n / 10) ++ [digitChar (n % 10)]

/-- Canonical decimal digits of a natural number (Python `str(int)`). -/
def natToDigits (n : Nat) : List Char := natDigitsAux (n + 1) n

/-- Python `str(...)` of a signed integer. -/
def intChars : Int → List Char
  | Int.ofNat n => natToDigits n
  | Int.negSucc n => '-' :: natToDigits (n + 1)

/-- Python `int(text)` on the character repertoire that a parsed prerelease
segment can contain (optional sign, then decimal digits). -/
def pyInt (l : List Char) : Option Int :=
  match l with
  | '-' :: ds =>
    if ds ≠ [] ∧ ds.all Char.isDigit then some (-(digitsToNat ds : Int)) else none
  | '+' :: ds =>
    if ds ≠ [] ∧ ds.all Char.isDigit then some (digitsToNat ds : Int) else none
  | ds =>
    if ds ≠ [] ∧ ds.all Char.isDigit then some (digitsToNat ds : Int) else none

/-- Maximum of a nonempty list of integers (Python `max`). -/
def listMaxInt (h : Int) (t : List Int) : Int :=
  t.foldl max h

/-! ## Glob matching

`fnmatch.fnmatch` / `git tag -l` pattern matching for the patterns this
program builds (`*`, `?` and literal characters; character classes never
occur in the generated patterns).  Defined with fuel so that it is
kernel-reducible. -/

def globMatchF : Nat → List Char → List Char → Bool
  | 0, _, _ => false
  | _ + 1, [], s => s.isEmpty
  | fuel + 1, '*' :: p, s =>
    globMatchF fuel p s ||
      (match s with
       | [] => false
       | _ :: t => globMatchF fuel ('*' :: p) t)
  | fuel + 1, '?' :: p, s =>
    match s with
    | [] => false
    | _ :: t => globMatchF fuel p t
  | fuel + 1, c :: p, s =>
    match s with
    | [] => false
    | d :: t => c == d && globMatchF fuel p t

def globMatch (p s : List Char) : Bool :=
  globMatchF (p.length + s.length + 1) p s

/-! ## Version model (`src/version_calc.py`, class `Version`) -/

/-- Semantic version representation (dataclass `Version`). -/
structure Version where
  major : Nat
  minor : Nat
  patch : Nat
  prerelease : Option String := none
  build : Option String := none
deriving Repr, DecidableEq

/-- Characters of `Version.__str__`.  Python truthiness: an empty prerelease
or build string produces no suffix. -/
def charsOfVersion (v : Version) : List Char :=
  natToDigits v.major ++ '.' :: natToDigits v.minor ++ '.' :: natToDigits v.patch ++
    (match v.prerelease with
     | some p => if p.data.isEmpty then [] else '-' :: p.data
     | none => []) ++
    (match v.build with
     | some b => if b.data.isEmpty then [] else '+' :: b.data
     | none => [])

/-- `Version.__str__`. -/
def versionToString (v : Version) : String :=
  String.mk (charsOfVersion v)

/-- Character class `[0-9A-Za-z\-.]` of the version regex. -/
def isSemverIdChar (c : Char) : Bool :=
  c.isAlphanum || c == '-' || c == '.'

/-- The groups of a successful match of the version regex
`^(\d+)\.(\d+)\.(\d+)(?:-([0-9A-Za-z\-.]+))?(?:\+([0-9A-Za-z\-.]+))?$`.
`trailingNl` records that `$` matched just before one final newline, which
Python permits. -/
structure SemverSegs where
  d1 : List Char
  d2 : List Char
  d3 : List Char
  pre : Option (List Char)
  bld : Option (List Char)
  trailingNl : Bool
deriving Repr, DecidableEq

/-- End-of-match test for the anchor `$` (end of text, or just before one
final newline). -/
def endNl (l : List Char) : Option Bool :=
  if l = [] then some false else if l = ['\n'] then some true else none

/-- Match of the optional `-prerelease` and `+build` groups followed by `$`.
The character classes exclude `+`, so the greedy spans are forced and no
backtracking can produce a different match. -/
def buildTail (l : List Char) : Option (List Char × Bool) :=
  if (l.takeWhile isSemverIdChar).isEmpty then none
  else (endNl (l.dropWhile isSemverIdChar)).map (fun nl => (l.takeWhile isSemverIdChar, nl))

def dashTail (p : List Char) :
    List Char → Option (Option (List Char) × Option (List Char) × Bool)
  | [] => (endNl []).map (fun nl => (some p, none, nl))
  | c2 :: r2 =>
    if c2 == '+' then (buildTail r2).map (fun t => (some p, some t.1, t.2))
    else (endNl (c2 :: r2)).map (fun nl => (some p, none, nl))

def segTail : List Char → Option (Option (List Char) × Option (List Char) × Bool)
  | [] => (endNl []).map (fun nl => (none, none, nl))
  | c :: r =>
    if c == '-' then
      if (r.takeWhile isSemverIdChar).isEmpty then none
      else dashTail (r.takeWhile isSemverIdChar) (r.dropWhile isSemverIdChar)
    else if c == '+' then (buildTail r).map (fun t => (none, some t.1, t.2))
    else (endNl (c :: r)).map (fun nl => (none, none, nl))

/-- Full match of the version regex, returning the groups.  Digit spans are
greedy and forced (`.` is not a digit). -/
def segPatch (d1 d2 r4 : List Char) : Option SemverSegs :=
  if (r4.takeWhile Char.isDigit).isEmpty then none
  else (segTail (r4.dropWhile Char.isDigit)).map
    (fun t => ⟨d1, d2, r4.takeWhile Char.isDigit, t.1, t.2.1, t.2.2⟩)

def segDot2 (d1 d2 : List Char) : List Char → Option SemverSegs
  | [] => none
  | c :: r4 => if c == '.' then segPatch d1 d2 r4 else none

def segMinor (d1 : List Char) : List Char → Option SemverSegs
  | [] => none
  | c :: r2 =>
    if c == '.' then
      if (r2.takeWhile Char.isDigit).isEmpty then none
      else segDot2 d1 (r2.takeWhile Char.isDigit) (r2.dropWhile Char.isDigit)
    else none

def segParse (l : List Char) : Option SemverSegs :=
  if (l.takeWhile Char.isDigit).isEmpty then none
  else segMinor (l.takeWhile Char.isDigit) (l.dropWhile Char.isDigit)

/-- Build the `Version` from the regex groups (`int(...)` on the numerals). -/
def versionOfSegs (s : SemverSegs) : Version :=
  ⟨digitsToNat s.d1, digitsToNat s.d2, digitsToNat s.d3,
    s.pre.map String.mk, s.bld.map String.mk⟩

/-- `Version.parse`: remove the `v` prefix with `lstrip('v')` (which removes
every leading `v`), then match the regex. -/
def Version.parse (s : String) : Option Version :=
  (segParse (s.data.dropWhile (fun c => c == 'v'))).map versionOfSegs

/-! ## Bump types (`src/commit_parser.py`, enum `BumpType`) -/

inductive BumpType where
  | major
  | minor
  | patch
  | none
deriving Repr, DecidableEq

/-- `Version.bump`. -/
def Version.bump (v : Version) : BumpType → Version
  | BumpType.major => ⟨v.major + 1, 0, 0, Option.none, Option.none⟩
  | BumpType.minor => ⟨v.major, v.minor + 1, 0, Option.none, Option.none⟩
  | BumpType.patch => ⟨v.major, v.minor, v.patch + 1, Option.none, Option.none⟩
  | BumpType.none => ⟨v.major, v.minor, v.patch, Option.none, Option.none⟩

/-- `Version.with_prerelease` (`f"{prerelease}.{counter}"`; build dropped). -/
def Version.withPrerelease (v : Version) (pre : String) (counter : Int) : Version :=
  ⟨v.major, v.minor, v.patch, some (String.mk (pre.data ++ '.' :: intChars counter)),
    Option.none⟩

/-! ## Configuration (`src/config.py`) -/

/-- Dataclass `BranchConfig`. -/
structure BranchConfig where
  name : String
  type : String
  prerelease : Option String := none
deriving Repr, DecidableEq

/-- Dataclass `CommitTypeConfig`. -/
structure CommitTypeConfig where
  name : String
  bump : String
  aliases : List String := []
deriving Repr, DecidableEq

/-- The slice of `Config` the core consults: the ordered branch list and the
ordered commit-type table (Python dicts preserve insertion order). -/
structure Config where
  branches : List BranchConfig
  commitTypes : List (String × CommitTypeConfig)
deriving Repr, DecidableEq

/-- `Config.DEFAULT_CONFIG` (the `breaking` entry has no `aliases` key, so
its alias list defaults to empty). -/
def defaultConfig : Config :=
  ⟨[⟨"main", "release", none⟩,
    ⟨"master", "release", none⟩,
    ⟨"dev", "prerelease", some "dev"⟩,
    ⟨"develop", "prerelease", some "dev"⟩],
   [("breaking", ⟨"breaking", "major", []⟩),
    ("feat", ⟨"feat", "minor", ["feature"]⟩),
    ("fix", ⟨"fix", "patch", ["bugfix", "hotfix"]⟩),
    ("perf", ⟨"perf", "patch", []⟩),
    ("revert", ⟨"revert", "patch", []⟩)]⟩

/-- `Config.get_branch_config`: first `fnmatch` match in order. -/
def getBranchConfig (cfg : Config) (branchName : String) : Option BranchConfig :=
  cfg.branches.find? (fun bc => globMatch bc.name.data branchName.data)

/-- `Config.get_commit_type`: direct hit on the table, else first entry whose
alias list contains the name. -/
def getCommitType (cfg : Config) (commitType : String) : Option CommitTypeConfig :=
  match cfg.commitTypes.find? (fun p => p.1 == commitType) with
  | some p => some p.2
  | none =>
    cfg.commitTypes.findSome?
      (fun p => if p.2.aliases.contains commitType then some p.2 else none)

/-! ## Commit parser (`src/commit_parser.py`) -/

/-- Dataclass `ParsedCommit`. -/
structure ParsedCommit where
  sha : String
  type : String
  scope : Option String
  subject : String
  body : String
  breaking : Bool
  bump : BumpType
deriving Repr, DecidableEq

/-- The `\s*:\s*(?P<subject>.+)$` suffix shared by the two header regexes.
The `\s*` before the colon is forced (a colon is not whitespace); the `\s*`
after it is greedy but backtracks one step so that `.+` can still take a
final whitespace character. -/
def colonSubject (r : List Char) : Option (List Char) :=
  match r.dropWhile isPyWs with
  | ':' :: r2 =>
    let r3 := r2.dropWhile isPyWs
    if r3.isEmpty then
      if r2.isEmpty then none else some (r2.drop (r2.length - 1))
    else some r3
  | _ => none

/-- Match of the parser header regex
`^(?P<type>\w+)(?:\((?P<scope>[^)]+)\))?\s*:\s*(?P<subject>.+)$`.
If a `(` follows the type but the parenthesized group cannot complete, the
whole match fails, because `(` can satisfy neither `\s*` nor `:`. -/
def headerMatchP (l : List Char) : Option (List Char × Option (List Char) × List Char) :=
  let ty := l.takeWhile isWordChar
  if ty.isEmpty then none
  else
    match l.dropWhile isWordChar with
    | '(' :: r2 =>
      let sc := r2.takeWhile (fun c => !(c == ')'))
      if sc.isEmpty then none
      else
        match r2.dropWhile (fun c => !(c == ')')) with
        | ')' :: r3 => (colonSubject r3).map (fun subj => (ty, some sc, subj))
        | _ => none
    | r => (colonSubject r).map (fun subj => (ty, none, subj))

/-- Tail `\s*(.+)` / `\s*(.+)$` of the two breaking-change regexes, matched
against the rest of the body.  `\s*` may cross newlines and `.` may not, so
a match exists exactly when some non-newline character follows a (possibly
empty) run of newlines, i.e. when the rest is not entirely newlines. -/
def dotTail (rest : List Char) : Bool :=
  rest.any (fun c => !(c == '\n'))

/-- Match of `BREAKING[- ]CHANGE:\s*(.+)` (IGNORECASE) at one position. -/
def matchAt1Tail (r2 : List Char) : Bool :=
  match ciStrip "change:".data r2 with
  | some r3 => dotTail r3
  | none => false

def matchAt1Sep : List Char → Bool
  | [] => false
  | c :: r2 => if c == '-' || c == ' ' then matchAt1Tail r2 else false

def matchAt1 (l : List Char) : Bool :=
  match ciStrip "breaking".data l with
  | none => false
  | some r => matchAt1Sep r

/-- `re.search` scan of the first breaking pattern over the body. -/
def p1Search : List Char → Bool
  | [] => false
  | c :: t => matchAt1 (c :: t) || p1Search t

/-- Match of `(\w+)(?:\([^)]+\))?!:` followed by `\s*(.+)$` at one position
(the second breaking pattern, anchored by MULTILINE `^` at a line start by
the caller).  The spans are greedy and forced. -/
def bangColon : List Char → Bool
  | c1 :: c2 :: rest => c1 == '!' && c2 == ':' && dotTail rest
  | _ => false

def closeScope : List Char → Bool
  | [] => false
  | rp :: rr => rp == ')' && bangColon rr

def afterType : List Char → Bool
  | [] => false
  | c :: r2 =>
    if c == '(' then
      if (r2.takeWhile (fun ch => !(ch == ')'))).isEmpty then false
      else closeScope (r2.dropWhile (fun ch => !(ch == ')')))
    else bangColon (c :: r2)

def matchAt2 (l : List Char) : Bool :=
  if (l.takeWhile isWordChar).isEmpty then false
  else afterType (l.dropWhile isWordChar)

/-- `re.search` scan of the second breaking pattern: MULTILINE `^` tries the
start of the text and every position following a newline. -/
def p2Aux (atStart : Bool) (l : List Char) : Bool :=
  (atStart && matchAt2 l) ||
    match l with
    | [] => false
    | c :: t => p2Aux (c == '\n') t

def p2Search (l : List Char) : Bool :=
  p2Aux true l

/-- `ConventionalCommitParser._is_breaking`: `'!' in header.split(':')[0]`
(the prefix before the first colon), else either breaking pattern found in
the body. -/
def isBreaking (header body : List Char) : Bool :=
  (header.takeWhile (fun c => !(c == ':'))).contains '!' ||
    p1Search body || p2Search body

/-- `ConventionalCommitParser._determine_bump`. -/
def determineBump (cfg : Config) (commitType : String) (breaking : Bool) : BumpType :=
  if breaking then BumpType.major
  else
    match getCommitType cfg commitType with
    | none => BumpType.none
    | some tc =>
      match tc.bump with
      | "major" => BumpType.major
      | "minor" => BumpType.minor
      | "patch" => BumpType.patch
      | _ => BumpType.none

/-- Header of a message as the parser sees it (`lines[0].strip()` after
`message.strip().split('\n')`; the split is never empty). -/
def headerOfMsg (message : String) : List Char :=
  match splitChar '\n' (pyStrip message.data) with
  | [] => []
  | l0 :: _ => pyStrip l0

/-- Body of a message as the parser sees it (`'\n'.join(lines[1:]).strip()`). -/
def bodyOfMsg (message : String) : List Char :=
  match splitChar '\n' (pyStrip message.data) with
  | [] => []
  | _ :: rest => pyStrip (joinNl rest)

/-- `ConventionalCommitParser.parse`. -/
def parseCommit (cfg : Config) (commitMessage : String) (commitSha : String) :
    Option ParsedCommit :=
  match headerMatchP (headerOfMsg commitMessage) with
  | none => none
  | some (ty, scope, subject) =>
    some ⟨commitSha, String.mk (lowerChars ty), scope.map String.mk,
      String.mk (pyStrip subject), String.mk (bodyOfMsg commitMessage),
      isBreaking (headerOfMsg commitMessage) (bodyOfMsg commitMessage),
      determineBump cfg (String.mk (lowerChars ty))
        (isBreaking (headerOfMsg commitMessage) (bodyOfMsg commitMessage))⟩

/-- `ConventionalCommitParser.parse_commits`. -/
def parseCommits (cfg : Config) (commits : List (String × String)) : List ParsedCommit :=
  commits.filterMap (fun p => parseCommit cfg p.2 p.1)

/-- Priorities of `ConventionalCommitParser.get_max_bump`. -/
def bumpPriority : BumpType → Nat
  | BumpType.major => 3
  | BumpType.minor => 2
  | BumpType.patch => 1
  | BumpType.none => 0

/-- `ConventionalCommitParser.get_max_bump` (strict improvement keeps the
first commit reaching the maximal priority). -/
def getMaxBump (commits : List ParsedCommit) : BumpType :=
  (commits.foldl
    (fun acc c =>
      if bumpPriority c.bump > acc.1 then (bumpPriority c.bump, c.bump) else acc)
    (0, BumpType.none)).2

/-! ## Version calculator (`src/version_calc.py`, class `VersionCalculator`)

The calculator reads git state only through `get_tags_matching`, which lists
the repository tags filtered by a glob; the embedding passes the tag list as
an explicit argument. -/

/-- `GitHelper.get_tags_matching`. -/
def getTagsMatching (tags : List String) (pat : List Char) : List String :=
  tags.filter (fun t => globMatch pat t.data)

/-- Strict ordering on the `(major, minor, patch)` key used by the stable
scan (Python tuple comparison). -/
def tripleLtB (a v : Version) : Bool :=
  a.major < v.major ||
    (a.major == v.major &&
      (a.minor < v.minor || (a.minor == v.minor && a.patch < v.patch)))

/-- `VersionCalculator._get_latest_stable_version`: parse every tag, keep the
versions without a prerelease, and take the first maximum under the
`(major, minor, patch)` key (the source sorts descending with Python's
stable sort and takes the head, which is exactly the first-encountered
maximal element). -/
def getLatestStableVersion (tags : List String) : Option Version :=
  match tags.filterMap
      (fun t =>
        match Version.parse t with
        | some v => if v.prerelease.isNone then some v else none
        | none => none) with
  | [] => none
  | x :: xs => some (xs.foldl (fun a v => if tripleLtB a v then v else a) x)

/-- Counter extracted from one tag by the loop of
`_get_prerelease_counter` (`Version.parse`, then Python truthiness on the
prerelease, then `split('.')`, `parts[0] == prerelease_id`, `int(parts[1])`;
any failure skips the tag). -/
def counterFromTag (prereleaseId : String) (tag : String) : Option Int :=
  match Version.parse tag with
  | none => none
  | some v =>
    match v.prerelease with
    | none => none
    | some p =>
      if p.data.isEmpty then none
      else
        match splitChar '.' p.data with
        | p0 :: p1 :: _ => if p0 == prereleaseId.data then pyInt p1 else none
        | _ => none

/-- `VersionCalculator._get_prerelease_counter`. -/
def getPrereleaseCounter (tags : List String) (baseVersion : Version)
    (prereleaseId : String) (_branchName : String) : Int :=
  if (getTagsMatching tags
      (charsOfVersion baseVersion ++ '-' :: prereleaseId.data ++ ['.', '*'])).isEmpty then 1
  else
    match (getTagsMatching tags
        (charsOfVersion baseVersion ++ '-' :: prereleaseId.data ++ ['.', '*'])).filterMap
          (counterFromTag prereleaseId) with
    | [] => 1
    | c :: cs => listMaxInt c cs + 1

/-- The stable base of `_calculate_prerelease_version` (`stable_version`,
defaulting to `Version(0, 0, 0)` when no stable tag exists). -/
def stableBaseOrZero (tags : List String) : Version :=
  match getLatestStableVersion tags with
  | none => ⟨0, 0, 0, none, none⟩
  | some v => v

/-- `VersionCalculator._calculate_prerelease_version`. -/
def calcPrereleaseVersion (tags : List String) (_commits : List ParsedCommit)
    (maxBump : BumpType) (prereleaseId : String) : Version :=
  ((stableBaseOrZero tags).bump maxBump).withPrerelease prereleaseId
    (getPrereleaseCounter tags ((stableBaseOrZero tags).bump maxBump) prereleaseId "")

/-- Stable-branch arm of `calculate_next_version`. -/
def calcStableNext (currentVersion : Option Version) (maxBump : BumpType) : Version :=
  (match currentVersion with
   | none => (⟨0, 0, 0, none, none⟩ : Version)
   | some v => (⟨v.major, v.minor, v.patch, none, none⟩ : Version)).bump maxBump

/-- `VersionCalculator.calculate_next_version`.  Python truthiness on
`branch_config.prerelease`: an absent or empty identifier selects the stable
arm. -/
def calculateNextVersion (cfg : Config) (tags : List String)
    (commits : List ParsedCommit) (currentVersion : Option Version)
    (branchName : String) (maxBump : BumpType) : Option Version :=
  match getBranchConfig cfg branchName with
  | none => none
  | some branchConfig =>
    if maxBump == BumpType.none then none
    else
      match branchConfig.prerelease with
      | some pid =>
        if pid.data.isEmpty then some (calcStableNext currentVersion maxBump)
        else some (calcPrereleaseVersion tags commits maxBump pid)
      | none => some (calcStableNext currentVersion maxBump)

/-- `VersionCalculator.get_current_version`.  The most-recent tag by version
sort is produced by git; the embedding receives it as an argument. -/
def getCurrentVersion (tags : List String) (latestTag : Option String)
    (stableOnly : Bool) : Option Version :=
  if stableOnly then getLatestStableVersion tags
  else
    match latestTag with
    | none => none
    | some t => Version.parse t

/-! ## Release driver (`release.py`, `ReleaseManager.generate_version`)

Only the outcome shape matters here: the driver returns an error payload when
the branch has no configuration, a no-release payload when there are no
commits or no bump, and a release payload otherwise. -/

inductive GenResult where
  | errorResult
  | noRelease
  | released (v : Version)
deriving Repr, DecidableEq

/-- `ReleaseManager.generate_version`, with the git queries (tag list, most
recent tag, commits since the last tag) supplied as inputs. -/
def generateVersionResult (cfg : Config) (branch : String) (tags : List String)
    (latestTag : Option String) (commitsData : List (String × String)) : GenResult :=
  match getBranchConfig cfg branch with
  | none => GenResult.errorResult
  | some branchConfig =>
    let isStableBranch := branchConfig.prerelease.isNone
    let currentVersion := getCurrentVersion tags latestTag isStableBranch
    if commitsData.isEmpty then GenResult.noRelease
    else
      let parsed := parseCommits cfg commitsData
      let maxBump := getMaxBump parsed
      match calculateNextVersion cfg tags parsed currentVersion branch maxBump with
      | none => GenResult.noRelease
      | some v => GenResult.released v

/-! ## Commit validator (`src/commit_validator.py`) -/

inductive VLevel where
  | error
  | warning
  | info
deriving Repr, DecidableEq

/-- The distinct finding messages the validator renders, with the data they
interpolate where a later claim depends on it. -/
inductive VMsg where
  | emptyMessage
  | headerMismatch
  | formatHint
  | invalidType
  | invalidScopeFormat
  | scopeNotAllowed
  | subjectTooShort (len minLen : Nat)
  | subjectTooLong (len maxLen : Nat)
  | subjectUppercase
  | subjectTrailingPeriod
  | breakingIndicator
  | headerTooLong (len maxLen : Nat)
  | bodyLineTooLong (shownIdx len maxLen : Nat)
  | breakingInBody
deriving Repr, DecidableEq

/-- Dataclass `ValidationResult`. -/
structure VFinding where
  level : VLevel
  msg : VMsg
  line : Option Nat := none
deriving Repr, DecidableEq

/-- The `validation` section of the configuration with its `.get` defaults
(the default configuration has no such section, so every default applies). -/
structure VConfig where
  subjectMinLength : Nat := 3
  subjectMaxLength : Nat := 100
  subjectLowercase : Bool := true
  headerMaxLength : Nat := 100
  bodyMaxLineLength : Nat := 100
  allowedScopes : List String := []
deriving Repr, DecidableEq

def defaultVConfig : VConfig := {}

/-- Match of the validator header regex
`^(?P<type>\w+)(?:\((?P<scope>[^)]+)\))?(?P<breaking>!)?\s*:\s*(?P<subject>.+)$`
(the parser regex plus an optional `!` group). -/
def headerMatchV (l : List Char) :
    Option (List Char × Option (List Char) × Bool × List Char) :=
  let ty := l.takeWhile isWordChar
  if ty.isEmpty then none
  else
    match l.dropWhile isWordChar with
    | '(' :: r2 =>
      let sc := r2.takeWhile (fun c => !(c == ')'))
      if sc.isEmpty then none
      else
        match r2.dropWhile (fun c => !(c == ')')) with
        | ')' :: '!' :: r3 => (colonSubject r3).map (fun subj => (ty, some sc, true, subj))
        | ')' :: r3 => (colonSubject r3).map (fun subj => (ty, some sc, false, subj))
        | _ => none
    | '!' :: r => (colonSubject r).map (fun subj => (ty, none, true, subj))
    | r => (colonSubject r).map (fun subj => (ty, none, false, subj))

/-- `SCOPE_PATTERN`: `^[a-zA-Z0-9_-]+$` (the scope cannot contain a newline,
so the `$` newline allowance is immaterial). -/
def scopeOk (sc : List Char) : Bool :=
  !sc.isEmpty && sc.all (fun c => c.isAlphanum || c == '_' || c == '-')

/-- The allowed type names of `_validate_type`: the configured names
together with every alias. -/
def allowedTypeNames (cfg : Config) : List String :=
  cfg.commitTypes.map Prod.fst ++ (cfg.commitTypes.map (fun p => p.2.aliases)).flatten

/-- `CommitMessageValidator._validate_type`. -/
def validateType (cfg : Config) (commitType : String) : List VFinding :=
  if (allowedTypeNames cfg).contains commitType then []
  else [⟨VLevel.error, VMsg.invalidType, some 1⟩]

/-- `CommitMessageValidator._validate_scope`. -/
def validateScope (vcfg : VConfig) (scope : List Char) : List VFinding :=
  (if scopeOk scope then [] else [⟨VLevel.error, VMsg.invalidScopeFormat, some 1⟩]) ++
    (if !vcfg.allowedScopes.isEmpty && !vcfg.allowedScopes.contains (String.mk scope) then
      [⟨VLevel.warning, VMsg.scopeNotAllowed, some 1⟩]
    else [])

/-- `CommitMessageValidator._validate_subject`. -/
def validateSubject (vcfg : VConfig) (subject : List Char) : List VFinding :=
  (if subject.length < vcfg.subjectMinLength then
    [⟨VLevel.error, VMsg.subjectTooShort subject.length vcfg.subjectMinLength, some 1⟩]
  else []) ++
  (if subject.length > vcfg.subjectMaxLength then
    [⟨VLevel.error, VMsg.subjectTooLong subject.length vcfg.subjectMaxLength, some 1⟩]
  else []) ++
  (if vcfg.subjectLowercase then
    match subject with
    | c :: _ => if c.isUpper then [⟨VLevel.warning, VMsg.subjectUppercase, some 1⟩] else []
    | [] => []
  else []) ++
  (if ['.'].isSuffixOf subject then
    [⟨VLevel.warning, VMsg.subjectTrailingPeriod, some 1⟩]
  else [])

/-- `CommitMessageValidator._validate_header_length`. -/
def validateHeaderLength (vcfg : VConfig) (header : List Char) : List VFinding :=
  if header.length > vcfg.headerMaxLength then
    [⟨VLevel.error, VMsg.headerTooLong header.length vcfg.headerMaxLength, some 1⟩]
  else []

/-- `CommitMessageValidator._validate_header`. -/
def validateHeader (cfg : Config) (vcfg : VConfig) (header : List Char) : List VFinding :=
  match headerMatchV header with
  | none =>
    [⟨VLevel.error, VMsg.headerMismatch, some 1⟩, ⟨VLevel.info, VMsg.formatHint, some 1⟩]
  | some (ty, scope, breaking, subject) =>
    validateType cfg (String.mk (lowerChars ty)) ++
      (match scope with
       | some sc => validateScope vcfg sc
       | none => []) ++
      validateSubject vcfg (pyStrip subject) ++
      (if breaking then [⟨VLevel.info, VMsg.breakingIndicator, some 1⟩] else []) ++
      validateHeaderLength vcfg header

/-- `CommitMessageValidator._validate_body`: one warning per over-long body
line, enumerated from 3 (`enumerate(body.split('\n'), start=3)`), then an
info finding when a (case-sensitive) BREAKING CHANGE marker occurs anywhere
in the body. -/
def validateBody (vcfg : VConfig) (body : List Char) (_totalLines : Nat) : List VFinding :=
  ((splitChar '\n' body).enumFrom 3).filterMap
    (fun p =>
      if p.2.length > vcfg.bodyMaxLineLength then
        some ⟨VLevel.warning, VMsg.bodyLineTooLong (p.1 - 2) p.2.length vcfg.bodyMaxLineLength,
          some p.1⟩
      else none) ++
    (if containsSub "BREAKING CHANGE:".data body || containsSub "BREAKING-CHANGE:".data body then
      [⟨VLevel.info, VMsg.breakingInBody, none⟩]
    else [])

/-- `CommitMessageValidator.validate`.  The `if not lines` guard of the
source is unreachable, because `str.split('\n')` never returns an empty
list; it is kept verbatim. -/
def validate (cfg : Config) (vcfg : VConfig) (commitMessage : String) : List VFinding :=
  match splitChar '\n' (pyStrip commitMessage.data) with
  | [] => [⟨VLevel.error, VMsg.emptyMessage, none⟩]
  | l0 :: rest =>
    validateHeader cfg vcfg (pyStrip l0) ++
      (if (l0 :: rest).length > 1 then
        if (pyStrip (joinNl rest)).isEmpty then []
        else validateBody vcfg (pyStrip (joinNl rest)) (l0 :: rest).length
      else [])

/-- `CommitMessageValidator.is_valid`. -/
def isValidMessage (cfg : Config) (vcfg : VConfig) (commitMessage : String) : Bool :=
  !(validate cfg vcfg commitMessage).any (fun r => r.level == VLevel.error)

/-! ## The semantic-version grammar as a predicate

`matchesSemver` states, as an existential decomposition, that a text matches
`^\d+\.\d+\.\d+(-[0-9A-Za-z.-]+)?(\+[0-9A-Za-z.-]+)?$` under Python
semantics (`$` also matches just before one final newline).  A backtracking
regex engine matches exactly when some decomposition exists; the lemmas
below show the greedy scanner `segParse` decides this predicate. -/

def semverEndP (rest : List Char) : Prop :=
  rest = [] ∨ rest = ['\n']

def semverTailP (rest : List Char) : Prop :=
  semverEndP rest
  ∨ (∃ p r, rest = '-' :: (p ++ r) ∧ p ≠ [] ∧ (∀ c ∈ p, isSemverIdChar c = true) ∧
      (semverEndP r ∨
        ∃ b r2, r = '+' :: (b ++ r2) ∧ b ≠ [] ∧ (∀ c ∈ b, isSemverIdChar c = true) ∧
          semverEndP r2))
  ∨ (∃ b r2, rest = '+' :: (b ++ r2) ∧ b ≠ [] ∧ (∀ c ∈ b, isSemverIdChar c = true) ∧
      semverEndP r2)

def matchesSemver (l : List Char) : Prop :=
  ∃ d1 d2 d3 rest,
    l = d1 ++ '.' :: (d2 ++ '.' :: (d3 ++ rest)) ∧
    d1 ≠ [] ∧ (∀ c ∈ d1, c.isDigit = true) ∧
    d2 ≠ [] ∧ (∀ c ∈ d2, c.isDigit = true) ∧
    d3 ≠ [] ∧ (∀ c ∈ d3, c.isDigit = true) ∧
    semverTailP rest

/-- Rendering of an optional `-prerelease` group. -/
def optDash : Option (List Char) → List Char
  | some p => '-' :: p
  | none => []

/-- Rendering of an optional `+build` group. -/
def optPlus : Option (List Char) → List Char
  | some b => '+' :: b
  | none => []

/-- Rendering of the optional groups and trailing newline of a match. -/
def segTailRender (s : SemverSegs) : List Char :=
  optDash s.pre ++ optPlus s.bld ++ (if s.trailingNl then ['\n'] else [])

/-- The normalization of the round-trip claim: strip one optional leading
`v` (the code instead strips every leading `v` via `lstrip`). -/
def stripOneV (l : List Char) : List Char :=
  match l with
  | [] => []
  | c :: t => if c == 'v' then t else c :: t

/-! ## Specification-side definitions

These restate, directly from the specification text and the claims under
scrutiny, the properties the code-level functions above are compared
against. -/

/-- Strict `(major, minor, patch)` ordering as a proposition (used by the
bump-monotonicity claim). -/
def versionTripleLt (a v : Version) : Prop :=
  a.major < v.major ∨
    (a.major = v.major ∧
      (a.minor < v.minor ∨ (a.minor = v.minor ∧ a.patch < v.patch)))

/-- The numeric triple of a version. -/
def tripleOf (v : Version) : Nat × Nat × Nat :=
  (v.major, v.minor, v.patch)

/-- From the spec: the maximum stable (no-prerelease) version parsed from
the tag list, defaulting to (0,0,0) when no stable tag exists. -/
def specLatestStable (tags : List String) : Version :=
  tags.foldl
    (fun acc t =>
      match Version.parse t with
      | some v => if v.prerelease.isNone && tripleLtB acc v then v else acc
      | none => acc)
    ⟨0, 0, 0, none, none⟩

/-- From the spec: one plus the maximum numeric counter extracted from the
tags matching the literal pattern `{base}-{id}.*`, or 1 when none is
found. -/
def specPrereleaseCounter (base : Version) (prereleaseId : String)
    (tags : List String) : Int :=
  match tags.filterMap
      (fun t =>
        if globMatch (charsOfVersion base ++ '-' :: prereleaseId.data ++ ['.', '*'])
            t.data then
          counterFromTag prereleaseId t
        else none) with
  | [] => 1
  | c :: cs => 1 + listMaxInt c cs

/-- From the claim: an exclamation mark appears in the substring of the
header before the first colon. -/
def specBangHeader (header : List Char) : Prop :=
  '!' ∈ header.takeWhile (fun c => !(c == ':'))

/-- From the claim (amended): the body contains, at some position, a
case-insensitive occurrence of `BREAKING CHANGE:` or `BREAKING-CHANGE:`
followed by at least one non-newline character (after a run of
newlines that `\s*` may consume). -/
def specBodyBreakingText (body : List Char) : Prop :=
  ∃ pre mid rest, body = pre ++ mid ++ rest ∧
    (lowerChars mid = "breaking change:".data ∨
      lowerChars mid = "breaking-change:".data) ∧
    rest.any (fun c => !(c == '\n')) = true

/-- From the claim (amended): the body contains, at a line start, a
conventional-commit header marked breaking with `!` before the colon. -/
def specBodyBangHeader (body : List Char) : Prop :=
  ∃ pre w scopePart rest,
    body = pre ++ (w ++ scopePart ++ '!' :: ':' :: rest) ∧
    (pre = [] ∨ ∃ q, pre = q ++ ['\n']) ∧
    w ≠ [] ∧ (∀ c ∈ w, isWordChar c = true) ∧
    (scopePart = [] ∨ ∃ sc, scopePart = '(' :: (sc ++ [')']) ∧ sc ≠ [] ∧
      ∀ c ∈ sc, (c == ')') = false) ∧
    rest.any (fun c => !(c == '\n')) = true

/-- The original claim C3 condition: a `!` before the first colon of the
header, or a case-insensitive `BREAKING CHANGE:`/`BREAKING-CHANGE:` line
anchored at a line start of the body. -/
def claimC3breaking (message : String) : Bool :=
  ((headerOfMsg message).takeWhile (fun c => !(c == ':'))).contains '!' ||
    (splitChar '\n' (bodyOfMsg message)).any
      (fun line =>
        "breaking change:".data.isPrefixOf (lowerChars line) ||
          "breaking-change:".data.isPrefixOf (lowerChars line))

/-- The body text the validator checks, when it checks one (the code path
`len(lines) > 1` and non-empty stripped body). -/
def bodyOfValidated (message : String) : Option (List Char) :=
  match splitChar '\n' (pyStrip message.data) with
  | _ :: r1 :: rs =>
    if (pyStrip (joinNl (r1 :: rs))).isEmpty then none
    else some (pyStrip (joinNl (r1 :: rs)))
  | _ => none

/-- Selector of the body-line-length warnings among the findings. -/
def isBodyLenWarning (f : VFinding) : Bool :=
  match f.msg with
  | VMsg.bodyLineTooLong _ _ _ => true
  | _ => false

/-- From the claim (amended): the expected body-length warnings, one per
over-long line, carrying line number 2 plus the one-based index of the line
within the stripped body. -/
def specBodyWarnings (vcfg : VConfig) (body : List Char) : List VFinding :=
  (splitChar '\n' body).enum.filterMap
    (fun p =>
      if p.2.length > vcfg.bodyMaxLineLength then
        some ⟨VLevel.warning,
          VMsg.bodyLineTooLong (p.1 + 1) p.2.length vcfg.bodyMaxLineLength,
          some (p.1 + 3)⟩
      else none)

/-- Selector of the BREAKING-CHANGE info finding of the validator. -/
def isBreakingInfoFinding (f : VFinding) : Bool :=
  match f.msg with
  | VMsg.breakingInBody => true
  | _ => false

/-- The concrete message of the C8 counterexample: a conventional header,
two blank lines, then one line of 101 characters. -/
def c8msg : String :=
  "feat: add stuff\n\n\n" ++ String.mk (List.replicate 101 'x')

/-- The concrete message of the C10 scenario: lower-case
`breaking change:` in the body. -/
def c10msg : String :=
  "feat: add stuff\n\nbreaking change: removes api"

/-- The parse of `breaking: remove old api` under the default
configuration. -/
def c9commit : ParsedCommit :=
  ⟨"", "breaking", none, "remove old api", "", false, BumpType.major⟩

/-- The body warnings the amended claim C8 predicts for a whole message:
none when the code path does not reach the body, else one per over-long
line of the stripped body. -/
def specBodyWarningsOfMsg (vcfg : VConfig) (message : String) : List VFinding :=
  match bodyOfValidated message with
  | none => []
  | some body => specBodyWarnings vcfg body

/-! ## Generic helper lemmas -/

theorem takeWhile_append_of_all {α : Type} {p : α → Bool} :
    ∀ (xs ys : List α), (∀ a ∈ xs, p a = true) →
      (∀ b t, ys = b :: t → p b = false) →
      (xs ++ ys).takeWhile p = xs ∧ (xs ++ ys).dropWhile p = ys := by
  intro xs
  induction xs with
  | nil =>
    intro ys _ hy
    cases ys with
    | nil => simp
    | cons b t => simp [List.takeWhile, List.dropWhile, hy b t rfl]
  | cons a xs ih =>
    intro ys hx hy
    have ha : p a = true := hx a (List.mem_cons_self a xs)
    have := ih ys (fun x hm => hx x (List.mem_cons_of_mem a hm)) hy
    simp [List.takeWhile, List.dropWhile, ha, this.1, this.2]

theorem map_eq_append_split {α β : Type} (f : α → β) :
    ∀ (l : List α) (a b : List β), l.map f = a ++ b →
      ∃ l1 l2, l = l1 ++ l2 ∧ l1.map f = a ∧ l2.map f = b := by
  intro l
  induction l with
  | nil =>
    intro a b h
    have := h.symm
    rw [List.map_nil] at h
    rcases List.append_eq_nil.mp h.symm with ⟨ha, hb⟩
    exact ⟨[], [], by simp [ha, hb]⟩
  | cons x l ih =>
    intro a b h
    cases a with
    | nil =>
      exact ⟨[], x :: l, by simpa using h⟩
    | cons a0 a' =>
      rw [List.map_cons] at h
      have h0 : f x = a0 := (List.cons.injEq _ _ _ _ ▸ h).1
      have h1 : l.map f = a' ++ b := (List.cons.injEq _ _ _ _ ▸ h).2
      rcases ih a' b h1 with ⟨l1, l2, hl, hm1, hm2⟩
      exact ⟨x :: l1, l2, by simp [hl], by simp [hm1, h0], hm2⟩

theorem foldl_filterMap_eq {α β γ : Type} (f : α → Option β) (g : γ → β → γ) :
    ∀ (l : List α) (init : γ),
      (l.filterMap f).foldl g init =
        l.foldl (fun acc x => match f x with | some y => g acc y | none => acc) init := by
  intro l
  induction l with
  | nil => intro init; rfl
  | cons x l ih =>
    intro init
    cases hfx : f x with
    | none => simp [List.filterMap_cons, hfx, ih]
    | some y => simp [List.filterMap_cons, hfx, ih]

theorem filterMap_filter_eq {α β : Type} (p : α → Bool) (f : α → Option β) :
    ∀ l : List α,
      (l.filter p).filterMap f =
        l.filterMap (fun x => if p x then f x else none) := by
  intro l
  induction l with
  | nil => rfl
  | cons x l ih =>
    by_cases hx : p x = true
    · simp [List.filter_cons, List.filterMap_cons, hx, ih]
    · have hx' : p x = false := by revert hx; cases p x <;> simp
      simp [List.filter_cons, List.filterMap_cons, hx', ih]

/-! ## Decimal digit lemmas -/

theorem isDigit_toNat_bounds (c : Char) (h : c.isDigit = true) :
    48 ≤ c.toNat ∧ c.toNat ≤ 57 := by
  simp only [Char.isDigit, Bool.and_eq_true, decide_eq_true_eq] at h
  obtain ⟨h1, h2⟩ := h
  constructor
  · exact UInt32.le_def.mp h1
  · exact UInt32.le_def.mp h2

theorem dval_lt_ten (c : Char) (h : c.isDigit = true) : dval c < 10 := by
  have := isDigit_toNat_bounds c h
  unfold dval
  omega

theorem digitChar_dval (c : Char) (h : c.isDigit = true) : digitChar (dval c) = c := by
  have hb := isDigit_toNat_bounds c h
  unfold digitChar dval
  have : 48 + (c.toNat - 48) = c.toNat := by omega
  rw [this, Char.ofNat_toNat]

theorem foldl_digits_ge_one :
    ∀ (l : List Char) (acc : Nat), 1 ≤ acc →
      1 ≤ l.foldl (fun a c => 10 * a + dval c) acc := by
  intro l
  induction l with
  | nil => intro acc h; exact h
  | cons c t ih =>
    intro acc h
    exact ih (10 * acc + dval c) (by omega)

theorem digitsToNat_pos (c : Char) (t : List Char) (hd : c.isDigit = true)
    (hc : c ≠ '0') : 1 ≤ digitsToNat (c :: t) := by
  have hb := isDigit_toNat_bounds c hd
  have hne : c.toNat ≠ 48 := by
    intro h48
    apply hc
    have := Char.ofNat_toNat c
    rw [h48] at this
    exact this.symm
  unfold digitsToNat
  rw [List.foldl_cons]
  exact foldl_digits_ge_one t _ (by unfold dval; omega)

theorem natDigitsAux_fuelIrrel :
    ∀ (n fuel1 fuel2 : Nat), n < fuel1 → n < fuel2 →
      natDigitsAux fuel1 n = natDigitsAux fuel2 n := by
  intro n
  induction n using Nat.strong_induction_on with
  | _ n ih =>
    intro fuel1 fuel2 h1 h2
    match fuel1, fuel2 with
    | f1 + 1, f2 + 1 =>
      show natDigitsAux (f1 + 1) n = natDigitsAux (f2 + 1) n
      unfold natDigitsAux
      by_cases hn : n < 10
      · simp [hn]
      · simp only [hn, if_false]
        have hdiv : n / 10 < n := Nat.div_lt_self (by omega) (by omega)
        rw [ih (n / 10) hdiv f1 f2 (by omega) (by omega)]

theorem natToDigits_unfold (n : Nat) :
    natToDigits n =
      if n < 10 then [digitChar n]
      else natToDigits (n / 10) ++ [digitChar (n % 10)] := by
  by_cases hn : n < 10
  · simp [natToDigits, natDigitsAux, hn]
  · have h1 : natToDigits n = natDigitsAux n (n / 10) ++ [digitChar (n % 10)] := by
      simp [natToDigits, natDigitsAux, hn]
    rw [h1, natDigitsAux_fuelIrrel (n / 10) n (n / 10 + 1)
      (Nat.div_lt_self (by omega) (by omega)) (by omega)]
    simp [hn, natToDigits]

theorem digits_roundtrip :
    ∀ d : List Char, d ≠ [] → (∀ c ∈ d, c.isDigit = true) →
      (d = ['0'] ∨ d.head? ≠ some '0') →
      natToDigits (digitsToNat d) = d := by
  intro d
  induction d using List.reverseRecOn with
  | nil => intro h; exact absurd rfl h
  | append_singleton ds c ih =>
    intro _ hdig hcanon
    have hc : c.isDigit = true := hdig c (by simp)
    have hdsdig : ∀ x ∈ ds, x.isDigit = true :=
      fun x hx => hdig x (by simp [hx])
    have hval : digitsToNat (ds ++ [c]) = 10 * digitsToNat ds + dval c := by
      unfold digitsToNat
      rw [List.foldl_append]
      rfl
    cases ds with
    | nil =>
      rw [hval]
      simp only [digitsToNat, List.foldl_nil]
      rw [natToDigits_unfold]
      have : 10 * 0 + dval c < 10 := by
        have := dval_lt_ten c hc
        omega
      simp only [this, if_true]
      have : 10 * 0 + dval c = dval c := by omega
      rw [this, digitChar_dval c hc]
      rfl
    | cons h0 dt =>
      have hhead : (h0 :: dt ++ [c]).head? = some h0 := rfl
      have hne0 : h0 ≠ '0' := by
        rcases hcanon with heq | hh
        · have := congrArg List.length heq
          simp at this
        · intro h00
          apply hh
          rw [hhead, h00]
      have hpos : 1 ≤ digitsToNat (h0 :: dt) :=
        digitsToNat_pos h0 dt (hdsdig h0 (by simp)) hne0
      rw [hval]
      set X := digitsToNat (h0 :: dt) with hX
      have hdv : dval c < 10 := dval_lt_ten c hc
      have hge : ¬ (10 * X + dval c < 10) := by omega
      rw [natToDigits_unfold]
      simp only [hge, if_false]
      have hdiveq : (10 * X + dval c) / 10 = X := by omega
      have hmodeq : (10 * X + dval c) % 10 = dval c := by omega
      rw [hdiveq, hmodeq, digitChar_dval c hc,
        ih (by simp) hdsdig (Or.inr (by simp [hne0]))]

theorem endNl_isSome_iff (l : List Char) : (endNl l).isSome = true ↔ semverEndP l := by
  unfold endNl semverEndP
  by_cases h1 : l = []
  · simp [h1]
  · by_cases h2 : l = ['\n'] <;> simp [h1, h2]

theorem endNl_eq_some (l : List Char) (nl : Bool) (h : endNl l = some nl) :
    l = (if nl then ['\n'] else []) := by
  unfold endNl at h
  by_cases h1 : l = []
  · rw [if_pos h1] at h
    have : nl = false := (Option.some.inj h).symm
    rw [this, h1]
    rfl
  · rw [if_neg h1] at h
    by_cases h2 : l = ['\n']
    · rw [if_pos h2] at h
      have : nl = true := (Option.some.inj h).symm
      rw [this, h2]
      rfl
    · rw [if_neg h2] at h
      exact absurd h (by simp)

theorem buildTail_eq_some (l : List Char) (b : List Char) (nl : Bool)
    (h : buildTail l = some (b, nl)) :
    l = b ++ (if nl then ['\n'] else []) ∧ b ≠ [] ∧
      (∀ c ∈ b, isSemverIdChar c = true) := by
  unfold buildTail at h
  by_cases hb : (l.takeWhile isSemverIdChar).isEmpty
  · rw [if_pos hb] at h
    exact absurd h (by simp)
  · rw [if_neg hb] at h
    rcases he : endNl (l.dropWhile isSemverIdChar) with _ | nl2
    · rw [he] at h
      exact absurd h (by simp)
    · rw [he] at h
      simp only [Option.map_some'] at h
      have h2 := Option.some.inj h
      have hbw : b = l.takeWhile isSemverIdChar := (congrArg Prod.fst h2).symm
      have hnlw : nl = nl2 := (congrArg Prod.snd h2).symm
      subst hbw
      subst hnlw
      refine ⟨?_, ?_, fun c hc => List.mem_takeWhile_imp hc⟩
      · conv_lhs => rw [← List.takeWhile_append_dropWhile isSemverIdChar l]
        rw [endNl_eq_some _ _ he]
      · intro hbe
        rw [hbe] at hb
        simp at hb

theorem buildTail_isSome_of (l b r2 : List Char) (hl : l = b ++ r2) (hb : b ≠ [])
    (hall : ∀ c ∈ b, isSemverIdChar c = true) (hend : semverEndP r2) :
    (buildTail l).isSome = true := by
  have hheadr : ∀ x t, r2 = x :: t → isSemverIdChar x = false := by
    intro x t hxt
    rcases hend with he | he <;> rw [he] at hxt
    · exact absurd hxt (by simp)
    · have hx : x = '\n' := by
        have := (List.cons.injEq '\n' [] x t).mp hxt
        exact this.1.symm
      rw [hx]
      decide
  have hforce := takeWhile_append_of_all (p := isSemverIdChar) b r2 hall hheadr
  unfold buildTail
  rw [hl, hforce.1, hforce.2]
  have hnl : (endNl r2).isSome = true := (endNl_isSome_iff r2).mpr hend
  have hbf : b.isEmpty = false := by
    cases b
    · exact absurd rfl hb
    · rfl
  rw [if_neg (by simp [hbf])]
  simpa using hnl

theorem dashTail_isSome_implies (p rest : List Char)
    (h : (dashTail p rest).isSome = true) :
    semverEndP rest ∨
      ∃ b r2, rest = '+' :: (b ++ r2) ∧ b ≠ [] ∧
        (∀ c ∈ b, isSemverIdChar c = true) ∧ semverEndP r2 := by
  cases rest with
  | nil => exact Or.inl (Or.inl rfl)
  | cons c2 r2 =>
    simp only [dashTail] at h
    by_cases hc2 : (c2 == '+') = true
    · rw [if_pos hc2] at h
      have hc2' : c2 = '+' := by simpa using hc2
      rcases hbt : buildTail r2 with _ | ⟨b, nl⟩
      · rw [hbt] at h
        simp at h
      · obtain ⟨hr2a, hbne, hball⟩ := buildTail_eq_some r2 b nl hbt
        refine Or.inr ⟨b, (if nl then ['\n'] else []), ?_, hbne, hball, ?_⟩
        · rw [hc2', hr2a]
        · cases nl
          · exact Or.inl rfl
          · exact Or.inr rfl
    · rw [if_neg hc2] at h
      rcases hnl : endNl (c2 :: r2) with _ | nl
      · rw [hnl] at h
        simp at h
      · have he := endNl_eq_some _ _ hnl
        cases nl
        · exact absurd he (by simp)
        · exact Or.inl (Or.inr (by simpa using he))

theorem dashTail_isSome_of (p rest : List Char)
    (h : semverEndP rest ∨
      ∃ b r2, rest = '+' :: (b ++ r2) ∧ b ≠ [] ∧
        (∀ c ∈ b, isSemverIdChar c = true) ∧ semverEndP r2) :
    (dashTail p rest).isSome = true := by
  rcases h with he | ⟨b, r2, hr, hbne, hball, hend⟩
  · rcases he with he | he <;> rw [he]
    · simp [dashTail, endNl]
    · simp only [dashTail]
      rw [if_neg (by decide : ¬ ((('\n' : Char) == '+') = true))]
      simp [endNl]
  · rw [hr]
    simp only [dashTail]
    rw [if_pos (by decide : (('+' : Char) == '+') = true)]
    have hbs := buildTail_isSome_of (b ++ r2) b r2 rfl hbne hball hend
    rcases Option.isSome_iff_exists.mp hbs with ⟨t, ht⟩
    rw [ht]
    rfl

theorem segTail_isSome_iff (l : List Char) :
    (segTail l).isSome = true ↔ semverTailP l := by
  constructor
  · intro h
    cases l with
    | nil => exact Or.inl (Or.inl rfl)
    | cons c r =>
      simp only [segTail] at h
      by_cases hc : (c == '-') = true
      · rw [if_pos hc] at h
        have hc' : c = '-' := by simpa using hc
        by_cases hp : (List.takeWhile isSemverIdChar r).isEmpty = true
        · rw [if_pos hp] at h
          simp at h
        · rw [if_neg hp] at h
          have hpne : List.takeWhile isSemverIdChar r ≠ [] := by
            intro he
            rw [he] at hp
            exact hp rfl
          have hall : ∀ x ∈ List.takeWhile isSemverIdChar r, isSemverIdChar x = true :=
            fun x hx => List.mem_takeWhile_imp hx
          have hsplit := List.takeWhile_append_dropWhile isSemverIdChar r
          have hrest := dashTail_isSome_implies _ _ h
          exact Or.inr (Or.inl ⟨List.takeWhile isSemverIdChar r,
            List.dropWhile isSemverIdChar r, by rw [hc', hsplit], hpne, hall, hrest⟩)
      · rw [if_neg hc] at h
        by_cases hc2 : (c == '+') = true
        · rw [if_pos hc2] at h
          have hc' : c = '+' := by simpa using hc2
          rcases hbt : buildTail r with _ | ⟨b, nl⟩
          · rw [hbt] at h
            simp at h
          · obtain ⟨hr, hbne, hball⟩ := buildTail_eq_some r b nl hbt
            refine Or.inr (Or.inr ⟨b, (if nl then ['\n'] else []),
              by rw [hc', hr], hbne, hball, ?_⟩)
            cases nl
            · exact Or.inl rfl
            · exact Or.inr rfl
        · rw [if_neg hc2] at h
          rcases hnl : endNl (c :: r) with _ | nl
          · rw [hnl] at h
            simp at h
          · have he := endNl_eq_some _ _ hnl
            cases nl
            · exact absurd he (by simp)
            · exact Or.inl (Or.inr (by simpa using he))
  · intro h
    rcases h with hend | ⟨p, r, hrest, hpne, hpall, hr⟩ | ⟨b, r2, hrest, hbne, hball, hend⟩
    · rcases hend with he | he <;> rw [he]
      · decide
      · simp only [segTail]
        rw [if_neg (by decide : ¬ ((('\n' : Char) == '-') = true)),
          if_neg (by decide : ¬ ((('\n' : Char) == '+') = true))]
        simp [endNl]
    · subst hrest
      simp only [segTail]
      rw [if_pos (by decide : (('-' : Char) == '-') = true)]
      have hheadr : ∀ x t, r = x :: t → isSemverIdChar x = false := by
        intro x t hxt
        rcases hr with hre | ⟨b, r2, hrb, _, _, _⟩
        · rcases hre with he | he <;> rw [he] at hxt
          · exact absurd hxt (by simp)
          · have hx : x = '\n' := by
              have := (List.cons.injEq '\n' [] x t).mp hxt
              exact this.1.symm
            rw [hx]
            decide
        · rw [hrb] at hxt
          have hx : x = '+' := by
            have := (List.cons.injEq '+' (b ++ r2) x t).mp hxt
            exact this.1.symm
          rw [hx]
          decide
      have hforce := takeWhile_append_of_all (p := isSemverIdChar) p r hpall hheadr
      have hpb : p.isEmpty = false := by
        cases p
        · exact absurd rfl hpne
        · rfl
      rw [hforce.1, hforce.2, if_neg (by simp [hpb])]
      exact dashTail_isSome_of p r hr
    · subst hrest
      simp only [segTail]
      rw [if_neg (by decide : ¬ ((('+' : Char) == '-') = true)),
        if_pos (by decide : (('+' : Char) == '+') = true)]
      have hbs := buildTail_isSome_of (b ++ r2) b r2 rfl hbne hball hend
      rcases Option.isSome_iff_exists.mp hbs with ⟨t, ht⟩
      rw [ht]
      rfl

theorem dashTail_eq_some (p rest : List Char) (po bo : Option (List Char)) (nl : Bool)
    (h : dashTail p rest = some (po, bo, nl)) :
    po = some p ∧
      rest = optPlus bo ++ (if nl then ['\n'] else []) ∧
      (∀ b, bo = some b → b ≠ [] ∧ ∀ c ∈ b, isSemverIdChar c = true) := by
  cases rest with
  | nil =>
    have h2 := Option.some.inj h
    have hpo : (some p : Option (List Char)) = po := congrArg (fun t => t.1) h2
    have hbo : (none : Option (List Char)) = bo := congrArg (fun t => t.2.1) h2
    have hnl : false = nl := congrArg (fun t => t.2.2) h2
    subst hpo
    subst hbo
    subst hnl
    exact ⟨rfl, rfl, by simp⟩
  | cons c2 r2 =>
    simp only [dashTail] at h
    by_cases hc2 : (c2 == '+') = true
    · rw [if_pos hc2] at h
      have hc2' : c2 = '+' := by simpa using hc2
      rcases hbt : buildTail r2 with _ | ⟨b, nl2⟩
      · rw [hbt] at h
        exact absurd h (by simp)
      · rw [hbt] at h
        simp only [Option.map_some'] at h
        have h2 := Option.some.inj h
        have hpo : (some p : Option (List Char)) = po := congrArg (fun t => t.1) h2
        have hbo : (some b : Option (List Char)) = bo := congrArg (fun t => t.2.1) h2
        have hnl : nl2 = nl := congrArg (fun t => t.2.2) h2
        subst hpo
        subst hbo
        subst hnl
        obtain ⟨hr2, hbne, hball⟩ := buildTail_eq_some r2 b nl2 hbt
        refine ⟨rfl, ?_, ?_⟩
        · rw [hc2', hr2]
          rfl
        · intro b2 hb2
          have : b = b2 := Option.some.inj hb2
          rw [← this]
          exact ⟨hbne, hball⟩
    · rw [if_neg hc2] at h
      rcases hnl : endNl (c2 :: r2) with _ | nl2
      · rw [hnl] at h
        exact absurd h (by simp)
      · rw [hnl] at h
        simp only [Option.map_some'] at h
        have h2 := Option.some.inj h
        have hpo : (some p : Option (List Char)) = po := congrArg (fun t => t.1) h2
        have hbo : (none : Option (List Char)) = bo := congrArg (fun t => t.2.1) h2
        have hnl2 : nl2 = nl := congrArg (fun t => t.2.2) h2
        subst hpo
        subst hbo
        subst hnl2
        have he := endNl_eq_some _ _ hnl
        refine ⟨rfl, by simpa [optPlus] using he, by simp⟩

theorem segTail_eq_some (l : List Char) (po bo : Option (List Char)) (nl : Bool)
    (h : segTail l = some (po, bo, nl)) :
    l = optDash po ++ optPlus bo ++ (if nl then ['\n'] else []) ∧
      (∀ p, po = some p → p ≠ [] ∧ ∀ c ∈ p, isSemverIdChar c = true) ∧
      (∀ b, bo = some b → b ≠ [] ∧ ∀ c ∈ b, isSemverIdChar c = true) := by
  cases l with
  | nil =>
    have h2 := Option.some.inj h
    have hpo : (none : Option (List Char)) = po := congrArg (fun t => t.1) h2
    have hbo : (none : Option (List Char)) = bo := congrArg (fun t => t.2.1) h2
    have hnl : false = nl := congrArg (fun t => t.2.2) h2
    subst hpo
    subst hbo
    subst hnl
    exact ⟨rfl, by simp, by simp⟩
  | cons c r =>
    simp only [segTail] at h
    by_cases hc : (c == '-') = true
    · rw [if_pos hc] at h
      have hc' : c = '-' := by simpa using hc
      by_cases hp : (List.takeWhile isSemverIdChar r).isEmpty = true
      · rw [if_pos hp] at h
        exact absurd h (by simp)
      · rw [if_neg hp] at h
        obtain ⟨hpo, hdrop, hbne⟩ := dashTail_eq_some _ _ po bo nl h
        have hpne : List.takeWhile isSemverIdChar r ≠ [] := by
          intro he
          rw [he] at hp
          exact hp rfl
        have hsplit := List.takeWhile_append_dropWhile isSemverIdChar r
        subst hpo
        refine ⟨?_, ?_, hbne⟩
        · rw [hc']
          have hr2 : r = List.takeWhile isSemverIdChar r ++
              (optPlus bo ++ (if nl then ['\n'] else [])) := by
            conv_lhs => rw [← hsplit]
            rw [hdrop]
          conv_lhs => rw [hr2]
          simp [optDash, List.append_assoc]
        · intro p2 hp2
          have : List.takeWhile isSemverIdChar r = p2 := Option.some.inj hp2
          rw [← this]
          exact ⟨hpne, fun c hc2 => List.mem_takeWhile_imp hc2⟩
    · rw [if_neg hc] at h
      by_cases hc2 : (c == '+') = true
      · rw [if_pos hc2] at h
        have hc' : c = '+' := by simpa using hc2
        rcases hbt : buildTail r with _ | ⟨b, nl2⟩
        · rw [hbt] at h
          exact absurd h (by simp)
        · rw [hbt] at h
          simp only [Option.map_some'] at h
          have h2 := Option.some.inj h
          have hpo : (none : Option (List Char)) = po := congrArg (fun t => t.1) h2
          have hbo : (some b : Option (List Char)) = bo := congrArg (fun t => t.2.1) h2
          have hnl : nl2 = nl := congrArg (fun t => t.2.2) h2
          subst hpo
          subst hbo
          subst hnl
          obtain ⟨hr, hbne, hball⟩ := buildTail_eq_some r b nl2 hbt
          refine ⟨?_, by simp, ?_⟩
          · rw [hc', hr]
            rfl
          · intro b2 hb2
            have : b = b2 := Option.some.inj hb2
            rw [← this]
            exact ⟨hbne, hball⟩
      · rw [if_neg hc2] at h
        rcases hnl : endNl (c :: r) with _ | nl2
        · rw [hnl] at h
          exact absurd h (by simp)
        · rw [hnl] at h
          simp only [Option.map_some'] at h
          have h2 := Option.some.inj h
          have hpo : (none : Option (List Char)) = po := congrArg (fun t => t.1) h2
          have hbo : (none : Option (List Char)) = bo := congrArg (fun t => t.2.1) h2
          have hnl2 : nl2 = nl := congrArg (fun t => t.2.2) h2
          subst hpo
          subst hbo
          subst hnl2
          have he := endNl_eq_some _ _ hnl
          exact ⟨by simpa [optDash, optPlus] using he, by simp, by simp⟩

theorem segPatch_eq_some (d1 d2 r4 : List Char) (s : SemverSegs)
    (h : segPatch d1 d2 r4 = some s) :
    s.d1 = d1 ∧ s.d2 = d2 ∧ r4 = s.d3 ++ segTailRender s ∧ s.d3 ≠ [] ∧
      (∀ c ∈ s.d3, c.isDigit = true) ∧
      (∀ p, s.pre = some p → p ≠ [] ∧ ∀ c ∈ p, isSemverIdChar c = true) ∧
      (∀ b, s.bld = some b → b ≠ [] ∧ ∀ c ∈ b, isSemverIdChar c = true) := by
  unfold segPatch at h
  by_cases hd3 : (r4.takeWhile Char.isDigit).isEmpty = true
  · rw [if_pos hd3] at h
    exact absurd h (by simp)
  · rw [if_neg hd3] at h
    rcases hst : segTail (r4.dropWhile Char.isDigit) with _ | ⟨po, bo, nl⟩
    · rw [hst] at h
      exact absurd h (by simp)
    · rw [hst] at h
      simp only [Option.map_some'] at h
      have hs := (Option.some.inj h).symm
      subst hs
      obtain ⟨hdrop, hpo, hbo⟩ := segTail_eq_some _ po bo nl hst
      have hne : r4.takeWhile Char.isDigit ≠ [] := by
        intro he
        rw [he] at hd3
        exact hd3 rfl
      refine ⟨rfl, rfl, ?_, hne, fun c hc => List.mem_takeWhile_imp hc, hpo, hbo⟩
      have hsplit := List.takeWhile_append_dropWhile Char.isDigit r4
      conv_lhs => rw [← hsplit]
      rw [hdrop]
      rfl

theorem segDot2_eq_some (d1 d2 rest : List Char) (s : SemverSegs)
    (h : segDot2 d1 d2 rest = some s) :
    s.d1 = d1 ∧ s.d2 = d2 ∧ rest = '.' :: (s.d3 ++ segTailRender s) ∧ s.d3 ≠ [] ∧
      (∀ c ∈ s.d3, c.isDigit = true) ∧
      (∀ p, s.pre = some p → p ≠ [] ∧ ∀ c ∈ p, isSemverIdChar c = true) ∧
      (∀ b, s.bld = some b → b ≠ [] ∧ ∀ c ∈ b, isSemverIdChar c = true) := by
  cases rest with
  | nil => exact absurd h (by simp [segDot2])
  | cons c r4 =>
    simp only [segDot2] at h
    by_cases hc : (c == '.') = true
    · rw [if_pos hc] at h
      have hc' : c = '.' := by simpa using hc
      obtain ⟨h1, h2, h3, h4, h5, h6, h7⟩ := segPatch_eq_some d1 d2 r4 s h
      exact ⟨h1, h2, by rw [hc', ← h3], h4, h5, h6, h7⟩
    · rw [if_neg hc] at h
      exact absurd h (by simp)

theorem segMinor_eq_some (d1 rest : List Char) (s : SemverSegs)
    (h : segMinor d1 rest = some s) :
    s.d1 = d1 ∧ rest = '.' :: (s.d2 ++ '.' :: (s.d3 ++ segTailRender s)) ∧
      s.d2 ≠ [] ∧ (∀ c ∈ s.d2, c.isDigit = true) ∧ s.d3 ≠ [] ∧
      (∀ c ∈ s.d3, c.isDigit = true) ∧
      (∀ p, s.pre = some p → p ≠ [] ∧ ∀ c ∈ p, isSemverIdChar c = true) ∧
      (∀ b, s.bld = some b → b ≠ [] ∧ ∀ c ∈ b, isSemverIdChar c = true) := by
  cases rest with
  | nil => exact absurd h (by simp [segMinor])
  | cons c r2 =>
    simp only [segMinor] at h
    by_cases hc : (c == '.') = true
    · rw [if_pos hc] at h
      have hc' : c = '.' := by simpa using hc
      by_cases hd2 : (r2.takeWhile Char.isDigit).isEmpty = true
      · rw [if_pos hd2] at h
        exact absurd h (by simp)
      · rw [if_neg hd2] at h
        obtain ⟨h1, h2, h3, h4, h5, h6, h7⟩ := segDot2_eq_some _ _ _ s h
        have hne : r2.takeWhile Char.isDigit ≠ [] := by
          intro he
          rw [he] at hd2
          exact hd2 rfl
        refine ⟨h1, ?_, by rw [h2]; exact hne,
          by rw [h2]; exact fun c hc2 => List.mem_takeWhile_imp hc2, h4, h5, h6, h7⟩
        rw [hc']
        have hsplit := List.takeWhile_append_dropWhile Char.isDigit r2
        have hr2 : r2 = s.d2 ++ ('.' :: (s.d3 ++ segTailRender s)) := by
          conv_lhs => rw [← hsplit]
          rw [h3, h2]
        conv_lhs => rw [hr2]
    · rw [if_neg hc] at h
      exact absurd h (by simp)

theorem segParse_eq_some (l : List Char) (s : SemverSegs)
    (h : segParse l = some s) :
    l = s.d1 ++ '.' :: (s.d2 ++ '.' :: (s.d3 ++ segTailRender s)) ∧
      s.d1 ≠ [] ∧ (∀ c ∈ s.d1, c.isDigit = true) ∧
      s.d2 ≠ [] ∧ (∀ c ∈ s.d2, c.isDigit = true) ∧
      s.d3 ≠ [] ∧ (∀ c ∈ s.d3, c.isDigit = true) ∧
      (∀ p, s.pre = some p → p ≠ [] ∧ ∀ c ∈ p, isSemverIdChar c = true) ∧
      (∀ b, s.bld = some b → b ≠ [] ∧ ∀ c ∈ b, isSemverIdChar c = true) := by
  unfold segParse at h
  by_cases hd1 : (l.takeWhile Char.isDigit).isEmpty = true
  · rw [if_pos hd1] at h
    exact absurd h (by simp)
  · rw [if_neg hd1] at h
    obtain ⟨h1, h2, h3, h4, h5, h6, h7, h8⟩ := segMinor_eq_some _ _ s h
    have hne : l.takeWhile Char.isDigit ≠ [] := by
      intro he
      rw [he] at hd1
      exact hd1 rfl
    refine ⟨?_, by rw [h1]; exact hne,
      by rw [h1]; exact fun c hc => List.mem_takeWhile_imp hc, h3, h4, h5, h6, h7, h8⟩
    have hsplit := List.takeWhile_append_dropWhile Char.isDigit l
    conv_lhs => rw [← hsplit]
    rw [h2, h1]

theorem semverTailP_render (po bo : Option (List Char)) (nl : Bool)
    (hp : ∀ p, po = some p → p ≠ [] ∧ ∀ c ∈ p, isSemverIdChar c = true)
    (hb : ∀ b, bo = some b → b ≠ [] ∧ ∀ c ∈ b, isSemverIdChar c = true) :
    semverTailP (optDash po ++ optPlus bo ++ (if nl then ['\n'] else [])) := by
  cases po with
  | some p =>
    refine Or.inr (Or.inl ⟨p, optPlus bo ++ (if nl then ['\n'] else []),
      by simp [optDash, List.append_assoc], (hp p rfl).1, (hp p rfl).2, ?_⟩)
    cases bo with
    | some b =>
      refine Or.inr ⟨b, (if nl then ['\n'] else []), by simp [optPlus], (hb b rfl).1,
        (hb b rfl).2, ?_⟩
      cases nl
      · exact Or.inl rfl
      · exact Or.inr rfl
    | none =>
      refine Or.inl ?_
      cases nl
      · exact Or.inl (by simp [optPlus])
      · exact Or.inr (by simp [optPlus])
  | none =>
    cases bo with
    | some b =>
      refine Or.inr (Or.inr ⟨b, (if nl then ['\n'] else []),
        by simp [optDash, optPlus], (hb b rfl).1, (hb b rfl).2, ?_⟩)
      cases nl
      · exact Or.inl rfl
      · exact Or.inr rfl
    | none =>
      refine Or.inl ?_
      cases nl
      · exact Or.inl (by simp [optDash, optPlus])
      · exact Or.inr (by simp [optDash, optPlus])

theorem segParse_isSome_of (l : List Char) (h : matchesSemver l) :
    (segParse l).isSome = true := by
  obtain ⟨d1, d2, d3, rest, hl, h1ne, h1d, h2ne, h2d, h3ne, h3d, htail⟩ := h
  subst hl
  have hdot : ∀ (rk : List Char) (x : Char) (t : List Char),
      '.' :: rk = x :: t → Char.isDigit x = false := by
    intro rk x t hxt
    have hx : x = '.' := by
      have := (List.cons.injEq '.' rk x t).mp hxt
      exact this.1.symm
    rw [hx]
    decide
  have hf1 := takeWhile_append_of_all (p := Char.isDigit) d1
    ('.' :: (d2 ++ '.' :: (d3 ++ rest))) h1d (hdot _)
  have h1b : d1.isEmpty = false := by
    cases d1
    · exact absurd rfl h1ne
    · rfl
  unfold segParse
  rw [hf1.1, hf1.2, if_neg (by simp [h1b])]
  simp only [segMinor]
  rw [if_pos (by decide : (('.' : Char) == '.') = true)]
  have hf2 := takeWhile_append_of_all (p := Char.isDigit) d2
    ('.' :: (d3 ++ rest)) h2d (hdot _)
  have h2b : d2.isEmpty = false := by
    cases d2
    · exact absurd rfl h2ne
    · rfl
  rw [hf2.1, hf2.2, if_neg (by simp [h2b])]
  simp only [segDot2]
  rw [if_pos (by decide : (('.' : Char) == '.') = true)]
  unfold segPatch
  have hrhead : ∀ x t, rest = x :: t → Char.isDigit x = false := by
    intro x t hxt
    rcases htail with hend | ⟨p, r, hrb, _, _, _⟩ | ⟨b, r2, hrb, _, _, _⟩
    · rcases hend with he | he <;> rw [he] at hxt
      · exact absurd hxt (by simp)
      · have hx : x = '\n' := by
          have := (List.cons.injEq '\n' [] x t).mp hxt
          exact this.1.symm
        rw [hx]
        decide
    · rw [hrb] at hxt
      have hx : x = '-' := by
        have := (List.cons.injEq '-' (p ++ r) x t).mp hxt
        exact this.1.symm
      rw [hx]
      decide
    · rw [hrb] at hxt
      have hx : x = '+' := by
        have := (List.cons.injEq '+' (b ++ r2) x t).mp hxt
        exact this.1.symm
      rw [hx]
      decide
  have hf3 := takeWhile_append_of_all (p := Char.isDigit) d3 rest h3d hrhead
  have h3b : d3.isEmpty = false := by
    cases d3
    · exact absurd rfl h3ne
    · rfl
  rw [hf3.1, hf3.2, if_neg (by simp [h3b])]
  have hst := (segTail_isSome_iff rest).mpr htail
  rcases Option.isSome_iff_exists.mp hst with ⟨t, ht⟩
  rw [ht]
  rfl

theorem segParse_isSome_iff (l : List Char) :
    (segParse l).isSome = true ↔ matchesSemver l := by
  constructor
  · intro h
    rcases Option.isSome_iff_exists.mp h with ⟨s, hs⟩
    obtain ⟨hl, h1ne, h1d, h2ne, h2d, h3ne, h3d, hpre, hbld⟩ := segParse_eq_some l s hs
    exact ⟨s.d1, s.d2, s.d3, segTailRender s, hl, h1ne, h1d, h2ne, h2d, h3ne, h3d,
      semverTailP_render s.pre s.bld s.trailingNl hpre hbld⟩
  · exact segParse_isSome_of l

theorem dropWhileV_eq_stripOneV (l : List Char)
    (h : ∀ x t, stripOneV l = x :: t → x.isDigit = true) :
    l.dropWhile (fun c => c == 'v') = stripOneV l := by
  cases l with
  | nil => rfl
  | cons c t =>
    by_cases hc : (c == 'v') = true
    · have hs : stripOneV (c :: t) = t := by
        simp only [stripOneV, hc, if_true]
      rw [hs]
      rw [hs] at h
      rw [List.dropWhile_cons, if_pos hc]
      cases t with
      | nil => rfl
      | cons x t2 =>
        have hd := h x t2 rfl
        have hxv : (x == 'v') = false := by
          by_cases hx : (x == 'v') = true
          · have : x = 'v' := by simpa using hx
            rw [this] at hd
            exact absurd hd (by decide)
          · simpa using hx
        rw [List.dropWhile_cons, if_neg (by simp [hxv])]
    · have hs : stripOneV (c :: t) = c :: t := by
        simp only [stripOneV]
        rw [if_neg hc]
      rw [hs, List.dropWhile_cons, if_neg (by simp at hc ⊢; exact hc)]

/-- Rendering a parsed version reproduces the matched text exactly when the
three numerals are canonical and no trailing newline was swallowed. -/
theorem charsOfVersion_of_segs (s : SemverSegs)
    (h1ne : s.d1 ≠ []) (h1 : ∀ c ∈ s.d1, c.isDigit = true)
    (c1 : s.d1 = ['0'] ∨ s.d1.head? ≠ some '0')
    (h2ne : s.d2 ≠ []) (h2 : ∀ c ∈ s.d2, c.isDigit = true)
    (c2 : s.d2 = ['0'] ∨ s.d2.head? ≠ some '0')
    (h3ne : s.d3 ≠ []) (h3 : ∀ c ∈ s.d3, c.isDigit = true)
    (c3 : s.d3 = ['0'] ∨ s.d3.head? ≠ some '0')
    (hpre : ∀ p, s.pre = some p → p ≠ []) (hbld : ∀ b, s.bld = some b → b ≠ [])
    (hnl : s.trailingNl = false) :
    charsOfVersion (versionOfSegs s) =
      s.d1 ++ '.' :: (s.d2 ++ '.' :: (s.d3 ++ segTailRender s)) := by
  obtain ⟨d1, d2, d3, pre, bld, nl⟩ := s
  simp only at h1ne h1 c1 h2ne h2 c2 h3ne h3 c3 hpre hbld hnl
  subst hnl
  unfold charsOfVersion versionOfSegs segTailRender
  simp only
  rw [digits_roundtrip d1 h1ne h1 c1, digits_roundtrip d2 h2ne h2 c2,
    digits_roundtrip d3 h3ne h3 c3]
  cases pre with
  | some p =>
    have hpne : p ≠ [] := (hpre p rfl)
    have hpb : p.isEmpty = false := by
      cases p
      · exact absurd rfl hpne
      · rfl
    cases bld with
    | some b =>
      have hbne : b ≠ [] := (hbld b rfl)
      have hbb : b.isEmpty = false := by
        cases b
        · exact absurd rfl hbne
        · rfl
      simp [optDash, optPlus, hpb, hbb]
    | none => simp [optDash, optPlus, hpb]
  | none =>
    cases bld with
    | some b =>
      have hbne : b ≠ [] := (hbld b rfl)
      have hbb : b.isEmpty = false := by
        cases b
        · exact absurd rfl hbne
        · rfl
      simp [optDash, optPlus, hbb]
    | none => simp [optDash, optPlus]

/-! ## Claim theorems -/

/-- Claim C5: for every version and severity in MAJOR, MINOR, PATCH, `bump`
is strictly greater under `(major, minor, patch)` ordering; `bump` with
NONE returns the bare numeric triple; and `bump` always clears prerelease
and build. -/
theorem c5_bump_monotonicity :
    (∀ (v : Version) (s : BumpType), s ≠ BumpType.none →
      versionTripleLt v (v.bump s)) ∧
    (∀ v : Version, v.bump BumpType.none = ⟨v.major, v.minor, v.patch, none, none⟩) ∧
    (∀ (v : Version) (s : BumpType),
      (v.bump s).prerelease = none ∧ (v.bump s).build = none) := by
  refine ⟨?_, ?_, ?_⟩
  · intro v s hs
    cases s with
    | major => exact Or.inl (Nat.lt_succ_self v.major)
    | minor => exact Or.inr ⟨rfl, Or.inl (Nat.lt_succ_self v.minor)⟩
    | patch => exact Or.inr ⟨rfl, Or.inr ⟨rfl, Nat.lt_succ_self v.patch⟩⟩
    | none => exact absurd rfl hs
  · intro v
    rfl
  · intro v s
    cases s <;> exact ⟨rfl, rfl⟩

/-- Witness for C5 at the concrete version 1.2.3-rc.1+b7 with a PATCH
bump and a NONE bump. -/
theorem c5_bump_monotonicity_witness :
    versionTripleLt ⟨1, 2, 3, some "rc.1", some "b7"⟩
        (Version.bump ⟨1, 2, 3, some "rc.1", some "b7"⟩ BumpType.patch) ∧
      Version.bump ⟨1, 2, 3, some "rc.1", some "b7"⟩ BumpType.none =
        ⟨1, 2, 3, none, none⟩ :=
  ⟨c5_bump_monotonicity.1 ⟨1, 2, 3, some "rc.1", some "b7"⟩ BumpType.patch
      (by decide),
    c5_bump_monotonicity.2.1 ⟨1, 2, 3, some "rc.1", some "b7"⟩⟩

/-- Claim C6 counterexample: the text `vv1.2.3` has more than one leading
`v`, so after stripping a single optional `v` it does not match the
version pattern; yet `Version.parse` accepts it, because `lstrip` removes
every leading `v`. -/
theorem c6_counterexample :
    Version.parse "vv1.2.3" = some ⟨1, 2, 3, none, none⟩ ∧
      ¬ matchesSemver (stripOneV ("vv1.2.3".data)) := by
  constructor
  · decide
  · intro hm
    exact absurd ((segParse_isSome_iff _).mpr hm) (by decide)

/-- Claim C6 (amended): `Version.parse` succeeds exactly when the text,
after stripping every leading `v` (Python `lstrip('v')`), matches
`^\d+\.\d+\.\d+(-[0-9A-Za-z.-]+)?(\+[0-9A-Za-z.-]+)?$` under Python
match semantics. -/
theorem c6_amended_parse_iff :
    ∀ s : String, (Version.parse s).isSome = true ↔
      matchesSemver (s.data.dropWhile (fun c => c == 'v')) := by
  intro s
  unfold Version.parse
  rw [← segParse_isSome_iff]
  cases h : segParse (s.data.dropWhile (fun c => c == 'v')) <;> simp [h]

/-- Claim C4 counterexample: `01.2.3` is valid for the spec grammar
(`\d+` admits leading zeros) and needs no `v` strip, but
`toString(parse("01.2.3"))` is `1.2.3`, not the normalized input. -/
theorem c4_counterexample :
    matchesSemver (stripOneV ("01.2.3".data)) ∧
      (Version.parse "01.2.3").map versionToString = some "1.2.3" ∧
      String.mk (stripOneV ("01.2.3".data)) = "01.2.3" ∧
      ("1.2.3" : String) ≠ "01.2.3" := by
  refine ⟨(segParse_isSome_iff _).mp (by decide), by decide, by decide, by decide⟩

/-- Claim C4 (amended): for every text that, after stripping a single
optional leading `v`, matches the version grammar with all three numerals
in canonical decimal form (no redundant leading zero) and without a
trailing newline, `toString(parse(text))` returns exactly the stripped
text; prerelease and build are preserved verbatim. -/
theorem c4_amended_roundtrip :
    ∀ (s : String) (segs : SemverSegs),
      segParse (stripOneV s.data) = some segs →
      (segs.d1 = ['0'] ∨ segs.d1.head? ≠ some '0') →
      (segs.d2 = ['0'] ∨ segs.d2.head? ≠ some '0') →
      (segs.d3 = ['0'] ∨ segs.d3.head? ≠ some '0') →
      segs.trailingNl = false →
      (Version.parse s).map versionToString = some (String.mk (stripOneV s.data)) := by
  intro s segs hp c1 c2 c3 hnl
  obtain ⟨hl, h1ne, h1d, h2ne, h2d, h3ne, h3d, hpre, hbld⟩ := segParse_eq_some _ _ hp
  have hhead : ∀ x t, stripOneV s.data = x :: t → x.isDigit = true := by
    intro x t hxt
    rw [hl] at hxt
    cases hd1 : segs.d1 with
    | nil => exact absurd hd1 h1ne
    | cons a d1t =>
      rw [hd1] at hxt
      have hax : a = x := by
        have := (List.cons.injEq a (d1t ++ '.' :: (segs.d2 ++ '.' ::
          (segs.d3 ++ segTailRender segs))) x t).mp hxt
        exact this.1
      rw [← hax]
      exact h1d a (by rw [hd1]; exact List.mem_cons_self a d1t)
  have hdw : s.data.dropWhile (fun c => c == 'v') = stripOneV s.data :=
    dropWhileV_eq_stripOneV _ hhead
  unfold Version.parse
  rw [hdw, hp]
  simp only [Option.map_some']
  have hchars : charsOfVersion (versionOfSegs segs) = stripOneV s.data := by
    rw [charsOfVersion_of_segs segs h1ne h1d c1 h2ne h2d c2 h3ne h3d c3
      (fun p hp2 => (hpre p hp2).1) (fun b hb2 => (hbld b hb2).1) hnl, ← hl]
  rw [versionToString, hchars]

/-- Witness for C4 (amended) at `v10.2.3-dev.1+b.2`. -/
theorem c4_amended_roundtrip_witness :
    (Version.parse "v10.2.3-dev.1+b.2").map versionToString =
      some (String.mk (stripOneV ("v10.2.3-dev.1+b.2".data))) :=
  c4_amended_roundtrip "v10.2.3-dev.1+b.2"
    ⟨"10".data, "2".data, "3".data, some ("dev.1".data), some ("b.2".data), false⟩
    (by decide) (by decide) (by decide) (by decide) (by decide)

/-! ## Lemmas for the prerelease calculation (claim C1) -/

theorem tripleLtB_congr_left (a a' v : Version) (h : tripleOf a = tripleOf a') :
    tripleLtB a v = tripleLtB a' v := by
  have h1 : a.major = a'.major := congrArg (fun t => t.1) h
  have h2 : a.minor = a'.minor := congrArg (fun t => t.2.1) h
  have h3 : a.patch = a'.patch := congrArg (fun t => t.2.2) h
  unfold tripleLtB
  rw [h1, h2, h3]

theorem foldl_pick_triple :
    ∀ (vs : List Version) (a a' : Version), tripleOf a = tripleOf a' →
      tripleOf (vs.foldl (fun x v => if tripleLtB x v then v else x) a) =
        tripleOf (vs.foldl (fun x v => if tripleLtB x v then v else x) a') := by
  intro vs
  induction vs with
  | nil => intro a a' h; exact h
  | cons v vs ih =>
    intro a a' h
    simp only [List.foldl_cons]
    rw [tripleLtB_congr_left a a' v h]
    by_cases hlt : tripleLtB a' v = true
    · rw [hlt]
      simp only [if_pos rfl]
      exact ih v v rfl
    · have hlt' : tripleLtB a' v = false := by
        revert hlt
        cases tripleLtB a' v <;> simp
      rw [hlt']
      simp only [Bool.false_eq_true, if_false]
      exact ih a a' h

/-- The stable-tag filter of `_get_latest_stable_version`. -/
def stableFilter (t : String) : Option Version :=
  match Version.parse t with
  | some v => if v.prerelease.isNone then some v else none
  | none => none

theorem getLatestStableVersion_eq_filter (tags : List String) :
    getLatestStableVersion tags =
      match tags.filterMap stableFilter with
      | [] => none
      | x :: xs => some (xs.foldl (fun a v => if tripleLtB a v then v else a) x) := rfl

theorem specLatestStable_eq_foldl (tags : List String) :
    specLatestStable tags =
      (tags.filterMap stableFilter).foldl
        (fun a v => if tripleLtB a v then v else a) ⟨0, 0, 0, none, none⟩ := by
  unfold specLatestStable
  rw [foldl_filterMap_eq]
  congr 1
  funext acc t
  unfold stableFilter
  cases Version.parse t with
  | none => rfl
  | some v =>
    cases hvp : v.prerelease with
    | none => simp [hvp]
    | some p => simp [hvp]

theorem tripleLtB_zero_false (x : Version)
    (h : tripleLtB ⟨0, 0, 0, none, none⟩ x = false) :
    tripleOf x = tripleOf (⟨0, 0, 0, none, none⟩ : Version) := by
  unfold tripleLtB at h
  simp at h
  unfold tripleOf
  simp only [Prod.mk.injEq]
  omega

theorem specLatestStable_triple (tags : List String) :
    tripleOf (specLatestStable tags) = tripleOf (stableBaseOrZero tags) := by
  rw [specLatestStable_eq_foldl]
  unfold stableBaseOrZero
  rw [getLatestStableVersion_eq_filter]
  cases hsl : tags.filterMap stableFilter with
  | nil => rfl
  | cons x xs =>
    simp only [List.foldl_cons]
    by_cases hlt : tripleLtB ⟨0, 0, 0, none, none⟩ x = true
    · rw [hlt]
      simp only [if_true]
    · have hlt' : tripleLtB ⟨0, 0, 0, none, none⟩ x = false := by
        revert hlt
        cases tripleLtB ⟨0, 0, 0, none, none⟩ x <;> simp
      rw [hlt']
      simp only [Bool.false_eq_true, if_false]
      exact foldl_pick_triple xs _ x (tripleLtB_zero_false x hlt').symm

theorem bump_triple_congr (a b : Version) (mb : BumpType)
    (h : tripleOf a = tripleOf b) : a.bump mb = b.bump mb := by
  have h1 : a.major = b.major := congrArg (fun t => t.1) h
  have h2 : a.minor = b.minor := congrArg (fun t => t.2.1) h
  have h3 : a.patch = b.patch := congrArg (fun t => t.2.2) h
  cases mb <;> simp [Version.bump, h1, h2, h3]

theorem stable_base_bump_eq (tags : List String) (mb : BumpType) :
    (stableBaseOrZero tags).bump mb = (specLatestStable tags).bump mb :=
  (bump_triple_congr _ _ mb (specLatestStable_triple tags)).symm

theorem getPrereleaseCounter_eq_spec (tags : List String) (base : Version)
    (pid : String) :
    getPrereleaseCounter tags base pid "" = specPrereleaseCounter base pid tags := by
  unfold getPrereleaseCounter specPrereleaseCounter getTagsMatching
  rw [filterMap_filter_eq]
  by_cases hm : (tags.filter (fun t =>
      globMatch (charsOfVersion base ++ '-' :: pid.data ++ ['.', '*']) t.data)).isEmpty = true
  · rw [if_pos hm]
    have : (tags.filter (fun t =>
        globMatch (charsOfVersion base ++ '-' :: pid.data ++ ['.', '*']) t.data)).filterMap
          (counterFromTag pid) = [] := by
      rw [List.isEmpty_iff] at hm
      rw [hm]
      rfl
    rw [filterMap_filter_eq] at this
    rw [this]
  · rw [if_neg hm]
    rw [← filterMap_filter_eq]
    cases (tags.filter (fun t =>
        globMatch (charsOfVersion base ++ '-' :: pid.data ++ ['.', '*']) t.data)).filterMap
          (counterFromTag pid) with
    | nil => rfl
    | cons c cs => exact Int.add_comm (listMaxInt c cs) 1

/-- Claim C1: on a prerelease branch with a (nonempty) identifier and a
bump to perform, the calculator returns the spec-described value: the bump
of the maximum stable tag (default 0.0.0) suffixed with the identifier and
one plus the maximum existing counter (or 1); in particular the scenario
with identifier `dev`, stable tag `1.2.0`, PATCH, and existing
`1.2.1-dev.1`, `1.2.1-dev.2` yields `1.2.1-dev.3`. -/
theorem c1_prerelease_next_version :
    (∀ (cfg : Config) (tags : List String) (commits : List ParsedCommit)
        (cur : Option Version) (branch : String) (mb : BumpType)
        (bc : BranchConfig) (pid : String),
      getBranchConfig cfg branch = some bc →
      bc.prerelease = some pid → pid ≠ "" →
      mb ≠ BumpType.none →
      calculateNextVersion cfg tags commits cur branch mb =
        some (((specLatestStable tags).bump mb).withPrerelease pid
          (specPrereleaseCounter ((specLatestStable tags).bump mb) pid tags))) ∧
    calculateNextVersion defaultConfig ["1.2.0", "1.2.1-dev.1", "1.2.1-dev.2"]
      [] none "dev" BumpType.patch = some ⟨1, 2, 1, some "dev.3", none⟩ := by
  constructor
  · intro cfg tags commits cur branch mb bc pid hbc hpre hpidne hmb
    unfold calculateNextVersion
    have hmbeq : (mb == BumpType.none) = false := by
      cases mb <;> simp_all
    have hpd : pid.data.isEmpty = false := by
      cases hpd : pid.data.isEmpty
      · rfl
      · exfalso
        apply hpidne
        have hnil : pid.data = [] := by
          rw [List.isEmpty_iff] at hpd
          exact hpd
        cases pid
        simp at hnil
        rw [hnil]
    simp only [hbc, hpre, hmbeq, hpd, Bool.false_eq_true, if_false]
    unfold calcPrereleaseVersion
    rw [stable_base_bump_eq tags mb, getPrereleaseCounter_eq_spec]
  · decide

/-- Witness for C1 at the scenario configuration (branch `dev`, PATCH,
stable tag 1.2.0, two existing dev prereleases). -/
theorem c1_prerelease_next_version_witness :
    calculateNextVersion defaultConfig ["1.2.0", "1.2.1-dev.1", "1.2.1-dev.2"]
        [] none "dev" BumpType.patch =
      some (((specLatestStable ["1.2.0", "1.2.1-dev.1", "1.2.1-dev.2"]).bump
          BumpType.patch).withPrerelease "dev"
        (specPrereleaseCounter
          ((specLatestStable ["1.2.0", "1.2.1-dev.1", "1.2.1-dev.2"]).bump
            BumpType.patch) "dev" ["1.2.0", "1.2.1-dev.1", "1.2.1-dev.2"])) :=
  c1_prerelease_next_version.1 defaultConfig
    ["1.2.0", "1.2.1-dev.1", "1.2.1-dev.2"] [] none "dev" BumpType.patch
    ⟨"dev", "prerelease", some "dev"⟩ "dev" (by decide) (by decide) (by decide)
    (by decide)

/-- Claim C2 counterexample: `calculate_next_version` returns the same
absence value for an unconfigured branch (with a bump to perform) as for a
configured branch with no bump, so the configuration gap is not a hard
failure distinguishable from the normal no-release outcome at this
function. -/
theorem c2_counterexample :
    calculateNextVersion defaultConfig [] [] none "feature/x" BumpType.patch = none ∧
      calculateNextVersion defaultConfig [] [] none "main" BumpType.none = none := by
  exact ⟨by decide, by decide⟩

/-- Claim C2 (amended): the hard failure for an unconfigured branch is
signaled by the caller `generate_version`, which checks the branch
configuration first and returns an error result distinct from the
no-release result; `calculate_next_version` itself returns the plain
absence value in that case. -/
theorem c2_amended_branch_gap :
    (∀ (cfg : Config) (branch : String) (tags : List String)
        (latestTag : Option String) (commitsData : List (String × String)),
      getBranchConfig cfg branch = none →
      generateVersionResult cfg branch tags latestTag commitsData =
        GenResult.errorResult) ∧
    (∀ (cfg : Config) (tags : List String) (commits : List ParsedCommit)
        (cur : Option Version) (branch : String) (mb : BumpType),
      getBranchConfig cfg branch = none →
      calculateNextVersion cfg tags commits cur branch mb = none) ∧
    GenResult.errorResult ≠ GenResult.noRelease := by
  refine ⟨?_, ?_, by decide⟩
  · intro cfg branch tags lt cd h
    unfold generateVersionResult
    rw [h]
  · intro cfg tags commits cur branch mb h
    unfold calculateNextVersion
    rw [h]

/-- Witness for C2 (amended) at the unconfigured branch `feature/x`. -/
theorem c2_amended_branch_gap_witness :
    generateVersionResult defaultConfig "feature/x" [] none
        [("a1", "fix: null check")] = GenResult.errorResult ∧
      calculateNextVersion defaultConfig [] [] none "feature/x" BumpType.patch =
        none :=
  ⟨c2_amended_branch_gap.1 defaultConfig "feature/x" [] none
      [("a1", "fix: null check")] (by decide),
    c2_amended_branch_gap.2.1 defaultConfig [] [] none "feature/x" BumpType.patch
      (by decide)⟩

/-- Claim C7 (code behavior at the failing input): on the empty message the
validator does not return a single empty-message ERROR; it returns the
header-mismatch ERROR plus the INFO hint, because `''.split('\n')` yields
`['']` and the empty-list guard is unreachable. -/
theorem c7_empty_message_behavior :
    validate defaultConfig defaultVConfig "" =
      [⟨VLevel.error, VMsg.headerMismatch, some 1⟩,
        ⟨VLevel.info, VMsg.formatHint, some 1⟩] ∧
      splitChar '\n' (pyStrip ("".data)) = [[]] := by
  exact ⟨by decide, by decide⟩

theorem parseCommit_fields (cfg : Config) (msg sha : String) (c : ParsedCommit)
    (h : parseCommit cfg msg sha = some c) :
    c.bump = determineBump cfg c.type c.breaking ∧
      c.breaking = isBreaking (headerOfMsg msg) (bodyOfMsg msg) := by
  unfold parseCommit at h
  rcases hm : headerMatchP (headerOfMsg msg) with _ | ⟨ty, scope, subject⟩
  · rw [hm] at h
    exact absurd h (by simp)
  · rw [hm] at h
    simp only at h
    have hc := (Option.some.inj h).symm
    subst hc
    exact ⟨rfl, rfl⟩

/-- Claim C9: under the default configuration, a parsed commit whose type
is `breaking` and whose message carries no breaking marker gets
breaking=false yet bump=MAJOR, because `breaking` is itself a configured
commit type mapped to major severity; in particular
`breaking: remove old api` parses exactly so. -/
theorem c9_breaking_type_major :
    (∀ (msg sha : String) (c : ParsedCommit),
      parseCommit defaultConfig msg sha = some c →
      c.breaking = false → c.type = "breaking" →
      c.bump = BumpType.major) ∧
    parseCommit defaultConfig "breaking: remove old api" "" = some c9commit ∧
      c9commit.breaking = false ∧ c9commit.bump = BumpType.major := by
  refine ⟨?_, by decide, rfl, rfl⟩
  intro msg sha c h hbr hty
  have hb := (parseCommit_fields defaultConfig msg sha c h).1
  rw [hb, hty, hbr]
  decide

/-- Witness for C9 at `breaking: remove old api`. -/
theorem c9_breaking_type_major_witness : c9commit.bump = BumpType.major :=
  c9_breaking_type_major.1 "breaking: remove old api" "" c9commit (by decide)
    (by decide) (by decide)

/-- Claim C10: a lower-case `breaking change:` line in the body makes the
parser mark the commit breaking (case-insensitive regex) and bump MAJOR,
while the validator, whose body check is a case-sensitive substring test,
emits no BREAKING-CHANGE info finding for the same message. -/
theorem c10_case_sensitivity :
    (parseCommit defaultConfig c10msg "").map (fun c => (c.breaking, c.bump)) =
        some (true, BumpType.major) ∧
      (validate defaultConfig defaultVConfig c10msg).filter isBreakingInfoFinding =
        [] := by
  exact ⟨by decide, by decide⟩

/-! ## Lemmas for the body-warning line numbers (claim C8) -/

theorem validateType_no_body_warn (cfg : Config) (t : String) :
    ∀ f ∈ validateType cfg t, isBodyLenWarning f = false := by
  intro f hf
  unfold validateType at hf
  split at hf
  · exact absurd hf (by simp)
  · simp at hf
    subst hf
    rfl

theorem validateScope_no_body_warn (vcfg : VConfig) (sc : List Char) :
    ∀ f ∈ validateScope vcfg sc, isBodyLenWarning f = false := by
  intro f hf
  unfold validateScope at hf
  rw [List.mem_append] at hf
  rcases hf with hf | hf
  · split at hf
    · exact absurd hf (by simp)
    · simp at hf
      subst hf
      rfl
  · split at hf
    · simp at hf
      subst hf
      rfl
    · exact absurd hf (by simp)

theorem validateSubject_no_body_warn (vcfg : VConfig) (subj : List Char) :
    ∀ f ∈ validateSubject vcfg subj, isBodyLenWarning f = false := by
  intro f hf
  unfold validateSubject at hf
  rw [List.mem_append, List.mem_append, List.mem_append] at hf
  rcases hf with ((hf | hf) | hf) | hf
  · split at hf
    · simp at hf
      subst hf
      rfl
    · exact absurd hf (by simp)
  · split at hf
    · simp at hf
      subst hf
      rfl
    · exact absurd hf (by simp)
  · split at hf
    · cases subj with
      | nil => exact absurd hf (by simp)
      | cons c rest =>
        have hf2 : f ∈ (if c.isUpper then
            [(⟨VLevel.warning, VMsg.subjectUppercase, some 1⟩ : VFinding)]
          else []) := hf
        split at hf2
        · simp at hf2
          subst hf2
          rfl
        · exact absurd hf2 (by simp)
    · exact absurd hf (by simp)
  · split at hf
    · simp at hf
      subst hf
      rfl
    · exact absurd hf (by simp)

theorem validateHeaderLength_no_body_warn (vcfg : VConfig) (h : List Char) :
    ∀ f ∈ validateHeaderLength vcfg h, isBodyLenWarning f = false := by
  intro f hf
  unfold validateHeaderLength at hf
  split at hf
  · simp at hf
    subst hf
    rfl
  · exact absurd hf (by simp)

theorem validateHeader_no_body_warn (cfg : Config) (vcfg : VConfig) (h : List Char) :
    ∀ f ∈ validateHeader cfg vcfg h, isBodyLenWarning f = false := by
  intro f hf
  unfold validateHeader at hf
  rcases hm : headerMatchV h with _ | ⟨ty, sc, bk, subj⟩
  · rw [hm] at hf
    simp at hf
    rcases hf with hf | hf <;> subst hf <;> rfl
  · rw [hm] at hf
    simp only [List.mem_append] at hf
    rcases hf with (((hf | hf) | hf) | hf) | hf
    · exact validateType_no_body_warn cfg _ f hf
    · cases sc with
      | none => exact absurd hf (by simp)
      | some scv => exact validateScope_no_body_warn vcfg scv f hf
    · exact validateSubject_no_body_warn vcfg _ f hf
    · split at hf
      · simp at hf
        subst hf
        rfl
      · exact absurd hf (by simp)
    · exact validateHeaderLength_no_body_warn vcfg h f hf

theorem filter_filterMap_all {α : Type} (g : α → Option VFinding)
    (hall : ∀ a f, g a = some f → isBodyLenWarning f = true) :
    ∀ l : List α, (l.filterMap g).filter isBodyLenWarning = l.filterMap g := by
  intro l
  induction l with
  | nil => rfl
  | cons x t ih =>
    cases hg : g x with
    | none => simp [List.filterMap_cons, hg, ih]
    | some f => simp [List.filterMap_cons, hg, List.filter_cons, hall x f hg, ih]

theorem enumFrom_filterMap {β γ : Type} :
    ∀ (l : List β) (g : Nat × β → Option γ) (n : Nat),
      (l.enumFrom n).filterMap g =
        l.enum.filterMap (fun p => g (p.1 + n, p.2)) := by
  intro l
  induction l with
  | nil => intro g n; rfl
  | cons x t ih =>
    intro g n
    simp only [List.enumFrom, List.enum]
    rw [List.filterMap_cons, List.filterMap_cons]
    rw [ih g (n + 1), ih (fun p => g (p.1 + n, p.2)) 1]
    have hfun : (fun p : Nat × β => g (p.1 + (n + 1), p.2)) =
        (fun p : Nat × β => g (n + (p.1 + 1), p.2)) := by
      funext p
      have harith : p.1 + (n + 1) = n + (p.1 + 1) := by omega
      rw [harith]
    rw [hfun]
    simp [Nat.zero_add, Nat.add_assoc, Nat.add_comm]

theorem validateBody_filter (vcfg : VConfig) (body : List Char) (n : Nat) :
    (validateBody vcfg body n).filter isBodyLenWarning =
      specBodyWarnings vcfg body := by
  unfold validateBody specBodyWarnings
  rw [List.filter_append]
  have h1 : (if containsSub "BREAKING CHANGE:".data body ||
        containsSub "BREAKING-CHANGE:".data body then
        [⟨VLevel.info, VMsg.breakingInBody, none⟩] else
        ([] : List VFinding)).filter isBodyLenWarning = [] := by
    split <;> rfl
  rw [h1, List.append_nil]
  rw [filter_filterMap_all _ (by
    intro a f hg
    revert hg
    split
    · intro hg
      have := Option.some.inj hg
      rw [← this]
      rfl
    · intro hg
      exact absurd hg (by simp))]
  rw [enumFrom_filterMap]
  have hfun : (fun p : Nat × List Char =>
      if (p.1 + 3, p.2).2.length > vcfg.bodyMaxLineLength then
        some (⟨VLevel.warning,
          VMsg.bodyLineTooLong ((p.1 + 3, p.2).1 - 2) (p.1 + 3, p.2).2.length
            vcfg.bodyMaxLineLength,
          some (p.1 + 3, p.2).1⟩ : VFinding)
      else none) =
      (fun p : Nat × List Char =>
        if p.2.length > vcfg.bodyMaxLineLength then
          some (⟨VLevel.warning,
            VMsg.bodyLineTooLong (p.1 + 1) p.2.length vcfg.bodyMaxLineLength,
            some (p.1 + 3)⟩ : VFinding)
        else none) := by
    funext p
    obtain ⟨i, l⟩ := p
    simp only []
    by_cases hl : l.length > vcfg.bodyMaxLineLength
    · rw [if_pos hl, if_pos hl]
      have harith : i + 3 - 2 = i + 1 := by omega
      rw [harith]
    · rw [if_neg hl, if_neg hl]
  rw [hfun]

/-- Claim C8 (amended): validate emits one WARNING per over-long line of
the stripped body, and the line number it attaches is 2 plus the one-based
index of the line within that stripped body; this equals the position in
the full message only when the body is separated from the header by
exactly one blank line. -/
theorem c8_amended_body_warning_lines :
    ∀ (cfg : Config) (vcfg : VConfig) (msg : String),
      (validate cfg vcfg msg).filter isBodyLenWarning =
        specBodyWarningsOfMsg vcfg msg := by
  intro cfg vcfg msg
  unfold validate specBodyWarningsOfMsg bodyOfValidated
  rcases hsp : splitChar '\n' (pyStrip msg.data) with _ | ⟨l0, rest⟩
  · simp only [hsp]
    rfl
  · cases rest with
    | nil =>
      simp only [hsp]
      rw [List.filter_append]
      rw [List.filter_eq_nil_iff.mpr
        (fun f hf => by simp [validateHeader_no_body_warn cfg vcfg _ f hf])]
      rw [if_neg (by simp)]
      rfl
    | cons r1 rs =>
      simp only [hsp]
      rw [List.filter_append]
      rw [List.filter_eq_nil_iff.mpr
        (fun f hf => by simp [validateHeader_no_body_warn cfg vcfg _ f hf])]
      rw [List.nil_append, if_pos (by simp)]
      by_cases hb : (pyStrip (joinNl (r1 :: rs))).isEmpty = true
      · rw [if_pos hb, if_pos hb]
        rfl
      · rw [if_neg hb, if_neg hb]
        exact validateBody_filter vcfg _ _

set_option maxRecDepth 8000 in
/-- Claim C8 counterexample: in a message whose body is separated from the
header by two blank lines, the single over-long body line is the fourth
line of the message, yet the warning carries line number 3. -/
theorem c8_counterexample :
    (validate defaultConfig defaultVConfig c8msg).filter isBodyLenWarning =
        [⟨VLevel.warning, VMsg.bodyLineTooLong 1 101 100, some 3⟩] ∧
      (splitChar '\n' (pyStrip c8msg.data)).take 3 =
        ["feat: add stuff".data, [], []] ∧
      (splitChar '\n' (pyStrip c8msg.data)).get? 3 =
        some (List.replicate 101 'x') := by
  refine ⟨by decide, by decide, by decide⟩

/-! ## Lemmas for breaking-change detection (claim C3) -/

theorem ciStrip_of_lower :
    ∀ (pre rest : List Char), (ciStrip (lowerChars pre) (pre ++ rest)) = some rest := by
  intro pre
  induction pre with
  | nil => intro rest; rfl
  | cons c t ih =>
    intro rest
    simp only [lowerChars, List.map_cons, List.cons_append, ciStrip, beq_self_eq_true,
      if_true]
    exact ih rest

theorem ciStrip_eq_some :
    ∀ (needle hay rest : List Char), ciStrip needle hay = some rest →
      ∃ pre, hay = pre ++ rest ∧ lowerChars pre = needle := by
  intro needle
  induction needle with
  | nil =>
    intro hay rest h
    have : hay = rest := Option.some.inj h
    exact ⟨[], by simpa using this, rfl⟩
  | cons n ns ih =>
    intro hay rest h
    cases hay with
    | nil => exact absurd h (by simp [ciStrip])
    | cons c cs =>
      simp only [ciStrip] at h
      by_cases hc : (c.toLower == n) = true
      · rw [if_pos hc] at h
        rcases ih cs rest h with ⟨pre, hcs, hlow⟩
        refine ⟨c :: pre, by rw [hcs]; rfl, ?_⟩
        simp only [lowerChars, List.map_cons]
        rw [show c.toLower = n from by simpa using hc]
        rw [show List.map Char.toLower pre = ns from hlow]
      · rw [if_neg hc] at h
        exact absurd h (by simp)

theorem toNat_ofNat_valid (m : Nat) (h : m.isValidChar) :
    (Char.ofNat m).toNat = m := by
  unfold Char.ofNat
  rw [dif_pos h]
  rfl

theorem toLower_fixed (c d : Char) (hd : d.toNat < 65) (h : c.toLower = d) : c = d := by
  unfold Char.toLower at h
  by_cases hr : c.toNat ≥ 65 ∧ c.toNat ≤ 90
  · rw [if_pos hr] at h
    have hv : (c.toNat + 32).isValidChar := Or.inl (by omega)
    have h2 := congrArg Char.toNat h
    rw [toNat_ofNat_valid (c.toNat + 32) hv] at h2
    omega
  · rw [if_neg hr] at h
    exact h

theorem matchAt1_iff (l : List Char) :
    matchAt1 l = true ↔
      ∃ mid rest, l = mid ++ rest ∧
        (lowerChars mid = "breaking change:".data ∨
          lowerChars mid = "breaking-change:".data) ∧
        rest.any (fun c => !(c == '\n')) = true := by
  constructor
  · intro hm
    unfold matchAt1 at hm
    rcases h1 : ciStrip "breaking".data l with _ | r
    · rw [h1] at hm
      exact absurd hm (by simp)
    · simp only [h1] at hm
      cases r with
      | nil => exact absurd hm (by decide)
      | cons c r2 =>
        simp only [matchAt1Sep] at hm
        by_cases hc : (c == '-' || c == ' ') = true
        · rw [if_pos hc] at hm
          unfold matchAt1Tail at hm
          rcases h2 : ciStrip "change:".data r2 with _ | r3
          · rw [h2] at hm
            exact absurd hm (by simp)
          · simp only [h2] at hm
            rcases ciStrip_eq_some _ _ _ h1 with ⟨pre1, hl1, hlow1⟩
            rcases ciStrip_eq_some _ _ _ h2 with ⟨pre2, hl2, hlow2⟩
            refine ⟨pre1 ++ c :: pre2, r3, ?_, ?_, hm⟩
            · rw [hl1, hl2]
              simp [List.append_assoc]
            · have hsep : c = '-' ∨ c = ' ' := by
                rcases Bool.or_eq_true_iff.mp hc with h | h
                · exact Or.inl (by simpa using h)
                · exact Or.inr (by simpa using h)
              have hmap : lowerChars (pre1 ++ c :: pre2) =
                  "breaking".data ++ c.toLower :: "change:".data := by
                simp only [lowerChars, List.map_append, List.map_cons]
                rw [show List.map Char.toLower pre1 = "breaking".data from hlow1,
                  show List.map Char.toLower pre2 = "change:".data from hlow2]
              rcases hsep with hsep | hsep
              · subst hsep
                rw [hmap]
                exact Or.inr (by decide)
              · subst hsep
                rw [hmap]
                exact Or.inl (by decide)
        · rw [if_neg hc] at hm
          exact absurd hm (by simp)
  · intro ⟨mid, rest, hlr, hmid, hrest⟩
    have hsplit : ∃ m1 c m2, mid = m1 ++ c :: m2 ∧
        lowerChars m1 = "breaking".data ∧ (c = '-' ∨ c = ' ') ∧
        lowerChars m2 = "change:".data := by
      rcases hmid with hmid | hmid
      · rcases map_eq_append_split Char.toLower mid "breaking".data
          (' ' :: "change:".data) (by rw [show lowerChars mid =
            List.map Char.toLower mid from rfl] at hmid; rw [hmid]; decide)
          with ⟨m1, m2, hm12, hma, hmb⟩
        cases m2 with
        | nil => exact absurd hmb (by simp)
        | cons c m2' =>
          simp only [List.map_cons] at hmb
          have hc1 : c.toLower = ' ' := (List.cons.injEq _ _ _ _ ▸ hmb).1
          have hc2 : List.map Char.toLower m2' = "change:".data :=
            (List.cons.injEq _ _ _ _ ▸ hmb).2
          exact ⟨m1, c, m2', hm12, hma,
            Or.inr (toLower_fixed c ' ' (by decide) hc1), hc2⟩
      · rcases map_eq_append_split Char.toLower mid "breaking".data
          ('-' :: "change:".data) (by rw [show lowerChars mid =
            List.map Char.toLower mid from rfl] at hmid; rw [hmid]; decide)
          with ⟨m1, m2, hm12, hma, hmb⟩
        cases m2 with
        | nil => exact absurd hmb (by simp)
        | cons c m2' =>
          simp only [List.map_cons] at hmb
          have hc1 : c.toLower = '-' := (List.cons.injEq _ _ _ _ ▸ hmb).1
          have hc2 : List.map Char.toLower m2' = "change:".data :=
            (List.cons.injEq _ _ _ _ ▸ hmb).2
          exact ⟨m1, c, m2', hm12, hma,
            Or.inl (toLower_fixed c '-' (by decide) hc1), hc2⟩
    rcases hsplit with ⟨m1, c, m2, hm12, hma, hcs, hmb⟩
    have hlform : l = m1 ++ (c :: (m2 ++ rest)) := by
      rw [hlr, hm12]
      simp [List.append_assoc]
    unfold matchAt1
    have hstrip1 : ciStrip "breaking".data l = some (c :: (m2 ++ rest)) := by
      rw [hlform, ← hma]
      exact ciStrip_of_lower m1 (c :: (m2 ++ rest))
    simp only [hstrip1, matchAt1Sep]
    have hcb : (c == '-' || c == ' ') = true := by
      rcases hcs with h | h <;> subst h <;> decide
    rw [if_pos hcb]
    have hstrip2 : ciStrip "change:".data (m2 ++ rest) = some rest := by
      rw [← hmb]
      exact ciStrip_of_lower m2 rest
    unfold matchAt1Tail
    simp only [hstrip2]
    exact hrest

theorem p1Search_iff (l : List Char) :
    p1Search l = true ↔ ∃ pre suf, l = pre ++ suf ∧ matchAt1 suf = true := by
  induction l with
  | nil =>
    simp only [p1Search]
    constructor
    · intro h
      exact absurd h (by simp)
    · intro ⟨pre, suf, hps, hm⟩
      have hpre : pre = [] := (List.append_eq_nil.mp hps.symm).1
      have hsuf : suf = [] := (List.append_eq_nil.mp hps.symm).2
      rw [hsuf] at hm
      exact absurd hm (by decide)
  | cons c t ih =>
    simp only [p1Search, Bool.or_eq_true]
    constructor
    · intro h
      rcases h with h | h
      · exact ⟨[], c :: t, rfl, h⟩
      · rcases ih.mp h with ⟨pre, suf, hps, hm⟩
        exact ⟨c :: pre, suf, by rw [hps]; rfl, hm⟩
    · intro ⟨pre, suf, hps, hm⟩
      cases pre with
      | nil =>
        left
        rw [show suf = c :: t from by simpa using hps.symm] at hm
        exact hm
      | cons p0 pre' =>
        right
        apply ih.mpr
        refine ⟨pre', suf, ?_, hm⟩
        have := (List.cons.injEq p0 (pre' ++ suf) c t).mp hps.symm
        exact this.2.symm

theorem bangColon_iff (r : List Char) :
    bangColon r = true ↔ ∃ rest, r = '!' :: ':' :: rest ∧ dotTail rest = true := by
  rcases r with _ | ⟨c1, _ | ⟨c2, rest⟩⟩
  · constructor
    · intro h
      exact absurd h (by decide)
    · rintro ⟨rest, h, -⟩
      exact absurd h (by simp)
  · constructor
    · intro h
      have hf : bangColon [c1] = false := rfl
      rw [hf] at h
      exact absurd h (by simp)
    · rintro ⟨rest, h, -⟩
      exact absurd h (by simp)
  · constructor
    · intro h
      have h3 : (c1 == '!' && c2 == ':' && dotTail rest) = true := h
      simp only [Bool.and_eq_true, beq_iff_eq] at h3
      exact ⟨rest, by rw [h3.1.1, h3.1.2], h3.2⟩
    · rintro ⟨rest2, heq, hd⟩
      simp only [List.cons.injEq] at heq
      obtain ⟨h1, h2, h3⟩ := heq
      subst h1; subst h2; subst h3
      show ((('!' : Char) == '!' && (':' : Char) == ':') && dotTail rest) = true
      rw [hd]
      decide

theorem closeScope_iff (d : List Char) :
    closeScope d = true ↔ ∃ rr, d = ')' :: rr ∧ bangColon rr = true := by
  cases d with
  | nil =>
    constructor
    · intro h
      exact absurd h (by decide)
    · rintro ⟨rr, h, -⟩
      exact absurd h (by simp)
  | cons rp rr =>
    constructor
    · intro h
      have h2 : (rp == ')' && bangColon rr) = true := h
      simp only [Bool.and_eq_true, beq_iff_eq] at h2
      exact ⟨rr, by rw [h2.1], h2.2⟩
    · rintro ⟨rr2, heq, hb⟩
      simp only [List.cons.injEq] at heq
      obtain ⟨h1, h2⟩ := heq
      subst h1; subst h2
      show ((')' : Char) == ')' && bangColon rr) = true
      rw [hb]
      decide

theorem matchAt2_iff (l : List Char) :
    matchAt2 l = true ↔
      ∃ w scopePart rest,
        l = w ++ scopePart ++ '!' :: ':' :: rest ∧
        w ≠ [] ∧ (∀ c ∈ w, isWordChar c = true) ∧
        (scopePart = [] ∨ ∃ sc, scopePart = '(' :: (sc ++ [')']) ∧ sc ≠ [] ∧
          ∀ c ∈ sc, (c == ')') = false) ∧
        rest.any (fun c => !(c == '\n')) = true := by
  constructor
  · intro hm
    unfold matchAt2 at hm
    obtain ⟨w, hw⟩ : ∃ w, l.takeWhile isWordChar = w := ⟨_, rfl⟩
    obtain ⟨d, hd0⟩ : ∃ d, l.dropWhile isWordChar = d := ⟨_, rfl⟩
    rw [hw, hd0] at hm
    have hsplit : l = w ++ d := by
      rw [← hw, ← hd0]
      exact (List.takeWhile_append_dropWhile isWordChar l).symm
    have hall : ∀ c ∈ w, isWordChar c = true := by
      rw [← hw]
      exact fun c hc => List.mem_takeWhile_imp hc
    by_cases he : w.isEmpty = true
    · rw [if_pos he] at hm
      exact absurd hm (by simp)
    · rw [if_neg he] at hm
      have hwne : w ≠ [] := by
        intro h0
        rw [h0] at he
        exact he rfl
      rcases hd1 : d with _ | ⟨c, r2⟩
      · rw [hd1] at hm
        exact absurd hm (by decide)
      · rw [hd1] at hm
        simp only [afterType] at hm
        by_cases hc : (c == '(') = true
        · rw [if_pos hc] at hm
          obtain ⟨sc, hsc⟩ : ∃ sc, r2.takeWhile (fun ch => !(ch == ')')) = sc :=
            ⟨_, rfl⟩
          obtain ⟨ds, hds0⟩ : ∃ ds, r2.dropWhile (fun ch => !(ch == ')')) = ds :=
            ⟨_, rfl⟩
          rw [hsc, hds0] at hm
          have hr2 : r2 = sc ++ ds := by
            rw [← hsc, ← hds0]
            exact (List.takeWhile_append_dropWhile (fun ch => !(ch == ')')) r2).symm
          have hscall : ∀ ch ∈ sc, (ch == ')') = false := by
            rw [← hsc]
            intro ch hch
            have := List.mem_takeWhile_imp hch
            simpa using this
          by_cases he2 : sc.isEmpty = true
          · rw [if_pos he2] at hm
            exact absurd hm (by simp)
          · rw [if_neg he2] at hm
            have hscne : sc ≠ [] := by
              intro h0
              rw [h0] at he2
              exact he2 rfl
            obtain ⟨rr, hds1, hbang⟩ := (closeScope_iff _).mp hm
            obtain ⟨rest, hrr, hdot⟩ := (bangColon_iff _).mp hbang
            refine ⟨w, '(' :: (sc ++ [')']), rest, ?_, hwne, hall,
              Or.inr ⟨sc, rfl, hscne, hscall⟩, hdot⟩
            rw [hsplit, hd1, hr2, hds1, hrr, show c = '(' from by simpa using hc]
            simp [List.append_assoc]
        · rw [if_neg hc] at hm
          obtain ⟨rest, hcr, hdot⟩ := (bangColon_iff _).mp hm
          refine ⟨w, [], rest, ?_, hwne, hall, Or.inl rfl, hdot⟩
          rw [hsplit, hd1, hcr]
          simp
  · rintro ⟨w, scopePart, rest, heq, hwne, hwall, hscope, hdot⟩
    subst heq
    rw [List.append_assoc]
    have hheadns : ∀ b t, scopePart ++ '!' :: ':' :: rest = b :: t →
        isWordChar b = false := by
      intro b t hbt
      rcases hscope with h | ⟨sc, h, -, -⟩
      · rw [h] at hbt
        simp only [List.nil_append, List.cons.injEq] at hbt
        rw [← hbt.1]
        decide
      · rw [h] at hbt
        simp only [List.cons_append, List.cons.injEq] at hbt
        rw [← hbt.1]
        decide
    obtain ⟨htake, hdrop⟩ := takeWhile_append_of_all w
      (scopePart ++ '!' :: ':' :: rest) hwall hheadns
    unfold matchAt2
    rw [htake, hdrop]
    have hempty : w.isEmpty = false := by
      cases w with
      | nil => exact absurd rfl hwne
      | cons a t => rfl
    rw [hempty]
    simp only [Bool.false_eq_true, if_false]
    rcases hscope with h | ⟨sc, h, hscne, hscall⟩
    · rw [h]
      simp only [List.nil_append, afterType]
      rw [if_neg (by decide)]
      exact (bangColon_iff _).mpr ⟨rest, rfl, hdot⟩
    · rw [h]
      simp only [List.cons_append, List.append_assoc, List.nil_append, afterType]
      rw [if_pos (by decide)]
      have hscall2 : ∀ ch ∈ sc, (fun ch => !(ch == ')')) ch = true := by
        intro ch hch
        simp [hscall ch hch]
      have hheadp : ∀ b t, ([')'] ++ '!' :: ':' :: rest : List Char) = b :: t →
          (fun ch => !(ch == ')')) b = false := by
        intro b t hbt
        simp only [List.cons_append, List.nil_append, List.cons.injEq] at hbt
        rw [← hbt.1]
        decide
      obtain ⟨htake2, hdrop2⟩ := takeWhile_append_of_all sc
        ([')'] ++ '!' :: ':' :: rest) hscall2 hheadp
      rw [show sc ++ ')' :: '!' :: ':' :: rest =
        sc ++ ([')'] ++ '!' :: ':' :: rest) from by simp]
      rw [htake2, hdrop2]
      have hscempty : sc.isEmpty = false := by
        cases sc with
        | nil => exact absurd rfl hscne
        | cons a t => rfl
      rw [hscempty]
      simp only [Bool.false_eq_true, if_false]
      exact (closeScope_iff _).mpr ⟨'!' :: ':' :: rest, rfl,
        (bangColon_iff _).mpr ⟨rest, rfl, hdot⟩⟩

theorem p2Aux_iff (l : List Char) : ∀ (b : Bool),
    p2Aux b l = true ↔
      ∃ pre suf, l = pre ++ suf ∧ matchAt2 suf = true ∧
        ((pre = [] ∧ b = true) ∨ ∃ q, pre = q ++ ['\n']) := by
  induction l with
  | nil =>
    intro b
    constructor
    · intro h
      unfold p2Aux at h
      rcases Bool.or_eq_true_iff.mp h with h | h
      · have hm : matchAt2 [] = true := (Bool.and_eq_true_iff.mp h).2
        exact absurd hm (by decide)
      · exact absurd h (by simp)
    · rintro ⟨pre, suf, hps, hm, -⟩
      have hsuf : suf = [] := (List.append_eq_nil.mp hps.symm).2
      rw [hsuf] at hm
      exact absurd hm (by decide)
  | cons c t ih =>
    intro b
    constructor
    · intro h
      unfold p2Aux at h
      rcases Bool.or_eq_true_iff.mp h with h | h
      · obtain ⟨hb, hm⟩ := Bool.and_eq_true_iff.mp h
        exact ⟨[], c :: t, rfl, hm, Or.inl ⟨rfl, hb⟩⟩
      · obtain ⟨pre, suf, hps, hm, hpre⟩ := (ih (c == '\n')).mp h
        rcases hpre with ⟨hpe, hcn⟩ | ⟨q, hq⟩
        · refine ⟨['\n'], suf, ?_, hm, Or.inr ⟨[], rfl⟩⟩
          rw [hps, hpe, show c = '\n' from by simpa using hcn]
          rfl
        · refine ⟨c :: pre, suf, by rw [hps]; rfl, hm, Or.inr ⟨c :: q, by rw [hq]; rfl⟩⟩
    · rintro ⟨pre, suf, hps, hm, hpre⟩
      unfold p2Aux
      apply Bool.or_eq_true_iff.mpr
      rcases hpre with ⟨hpe, hb⟩ | ⟨q, hq⟩
      · left
        rw [hpe] at hps
        rw [hb, show suf = c :: t from by simpa using hps.symm] at *
        simpa using hm
      · right
        cases pre with
        | nil =>
          exact absurd hq.symm (by simp)
        | cons p0 pre2 =>
          have hinj := (List.cons.injEq p0 (pre2 ++ suf) c t).mp hps.symm
          apply (ih (c == '\n')).mpr
          refine ⟨pre2, suf, hinj.2.symm, hm, ?_⟩
          cases q with
          | nil =>
            have : p0 = '\n' ∧ pre2 = [] := by
              have := hq
              simp only [List.nil_append, List.cons.injEq] at this
              exact ⟨this.1, this.2⟩
            left
            rw [← hinj.1, this.1]
            exact ⟨this.2, by decide⟩
          | cons q0 q2 =>
            right
            have hq2 : p0 = q0 ∧ pre2 = q2 ++ ['\n'] := by
              have := hq
              simp only [List.cons_append, List.cons.injEq] at this
              exact ⟨this.1, this.2⟩
            exact ⟨q2, hq2.2⟩

theorem p2Search_iff (l : List Char) :
    p2Search l = true ↔
      ∃ pre suf, l = pre ++ suf ∧ matchAt2 suf = true ∧
        (pre = [] ∨ ∃ q, pre = q ++ ['\n']) := by
  unfold p2Search
  rw [p2Aux_iff l true]
  constructor
  · rintro ⟨pre, suf, hps, hm, hpre⟩
    refine ⟨pre, suf, hps, hm, ?_⟩
    rcases hpre with ⟨hpe, -⟩ | h
    · exact Or.inl hpe
    · exact Or.inr h
  · rintro ⟨pre, suf, hps, hm, hpre⟩
    refine ⟨pre, suf, hps, hm, ?_⟩
    rcases hpre with hpe | h
    · exact Or.inl ⟨hpe, rfl⟩
    · exact Or.inr h

theorem contains_bang_iff (h : List Char) :
    (h.takeWhile (fun c => !(c == ':'))).contains '!' = true ↔ specBangHeader h := by
  unfold specBangHeader
  simp [List.contains, List.elem_iff]

theorem p1Search_spec (body : List Char) :
    p1Search body = true ↔ specBodyBreakingText body := by
  rw [p1Search_iff]
  unfold specBodyBreakingText
  constructor
  · rintro ⟨pre, suf, hps, hm⟩
    obtain ⟨mid, rest, hsuf, hmid, hrest⟩ := (matchAt1_iff suf).mp hm
    refine ⟨pre, mid, rest, ?_, hmid, hrest⟩
    rw [hps, hsuf]
    simp [List.append_assoc]
  · rintro ⟨pre, mid, rest, heq, hmid, hrest⟩
    refine ⟨pre, mid ++ rest, ?_,
      (matchAt1_iff _).mpr ⟨mid, rest, rfl, hmid, hrest⟩⟩
    rw [heq]
    simp [List.append_assoc]

theorem p2Search_spec (body : List Char) :
    p2Search body = true ↔ specBodyBangHeader body := by
  rw [p2Search_iff]
  unfold specBodyBangHeader
  constructor
  · rintro ⟨pre, suf, hps, hm, hpre⟩
    obtain ⟨w, scopePart, rest, hsuf, hwne, hwall, hscope, hdot⟩ :=
      (matchAt2_iff suf).mp hm
    exact ⟨pre, w, scopePart, rest, by rw [hps, hsuf], hpre, hwne, hwall,
      hscope, hdot⟩
  · rintro ⟨pre, w, scopePart, rest, heq, hpre, hwne, hwall, hscope, hdot⟩
    exact ⟨pre, w ++ scopePart ++ '!' :: ':' :: rest, heq,
      (matchAt2_iff _).mpr ⟨w, scopePart, rest, rfl, hwne, hwall, hscope, hdot⟩,
      hpre⟩

/-- Claim C3 counterexample: for `fix: a` with body `see BREAKING CHANGE: x`
the parser marks the commit breaking — the first breaking pattern is searched
anywhere in the body, not only at line starts — while the claim's line-anchored
condition does not hold for this message. -/
theorem c3_counterexample :
    (parseCommit defaultConfig "fix: a\n\nsee BREAKING CHANGE: x" "").map
        (fun c => c.breaking) = some true ∧
      claimC3breaking "fix: a\n\nsee BREAKING CHANGE: x" = false := by
  exact ⟨by decide, by decide⟩

/-- Claim C3 (amended): for every message the parser accepts, breaking=true
holds iff a `!` appears in the header before the first colon, or the body
contains anywhere (not only line-anchored) a case-insensitive
`BREAKING CHANGE:` / `BREAKING-CHANGE:` followed by a non-newline character,
or the body contains at a line start a `type(scope)!:` / `type!:` header with
a non-newline character after the colon; no other condition makes breaking
true. -/
theorem c3_amended (cfg : Config) (msg sha : String) (c : ParsedCommit)
    (h : parseCommit cfg msg sha = some c) :
    (c.breaking = true ↔
      (specBangHeader (headerOfMsg msg) ∨ specBodyBreakingText (bodyOfMsg msg) ∨
        specBodyBangHeader (bodyOfMsg msg))) := by
  rw [(parseCommit_fields cfg msg sha c h).2]
  unfold isBreaking
  rw [Bool.or_eq_true, Bool.or_eq_true]
  constructor
  · rintro ((h1 | h2) | h3)
    · exact Or.inl ((contains_bang_iff _).mp h1)
    · exact Or.inr (Or.inl ((p1Search_spec _).mp h2))
    · exact Or.inr (Or.inr ((p2Search_spec _).mp h3))
  · rintro (h1 | h2 | h3)
    · exact Or.inl (Or.inl ((contains_bang_iff _).mpr h1))
    · exact Or.inl (Or.inr ((p1Search_spec _).mpr h2))
    · exact Or.inr ((p2Search_spec _).mpr h3)

/-- Witness for C3 (amended) at `feat: a` with body `BREAKING-CHANGE: stop`. -/
theorem c3_amended_witness :
    (ParsedCommit.breaking
        ⟨"", "feat", none, "a", "BREAKING-CHANGE: stop", true, BumpType.major⟩ =
          true ↔
      (specBangHeader (headerOfMsg "feat: a\n\nBREAKING-CHANGE: stop") ∨
        specBodyBreakingText (bodyOfMsg "feat: a\n\nBREAKING-CHANGE: stop") ∨
        specBodyBangHeader (bodyOfMsg "feat: a\n\nBREAKING-CHANGE: stop"))) :=
  c3_amended defaultConfig "feat: a\n\nBREAKING-CHANGE: stop" ""
    ⟨"", "feat", none, "a", "BREAKING-CHANGE: stop", true, BumpType.major⟩
    (by decide)
